import Mathlib

/-!
Shallow embedding of the distributed ball-sorting consensus engine
(token/process model, color and partner selection, message dispatcher,
convergence oracle, simulation driver) together with theorems about the
properties claimed of it.

The embedding follows the canonical variant of each service:
the message dispatcher with the feasibility-aware completion check,
the claim-based color selector, the scored partner selector, the
system-state oracle, and the driver loop with stagnation and safety
valves.  TypeScript mutation is modelled by explicit state passing;
JavaScript `Map` iteration order (insertion order, i.e. first
occurrence) is modelled by association lists in first-occurrence order;
floating-point percentage thresholds (0.3, 0.4, 0.5, 0.6, 0.8) are
modelled exactly over the rationals via cross-multiplication.
-/

namespace Consensus

/-- `type Color = 'R' | 'G' | 'B'` -/
inductive Color where
  | R
  | G
  | B
deriving DecidableEq, Repr, Inhabited

/-- `type ProcessId = 1 | 2 | 3` -/
inductive ProcessId where
  | p1
  | p2
  | p3
deriving DecidableEq, Repr, Inhabited

/-- `interface ProcessState` (the canonical variant has no `isActive` field). -/
structure ProcessState where
  id : ProcessId
  stack : List Color
  wanted : Option Color
  partner : Option ProcessId
  isDone : Bool
deriving DecidableEq, Repr, Inhabited

/-- `type: 'REQUEST' | 'SEND' | 'DONE'` -/
inductive MsgType where
  | REQUEST
  | SEND
  | DONE
deriving DecidableEq, Repr, Inhabited

/-- `interface Message`; the wall-clock `timestamp` carries no protocol meaning
and is omitted. -/
structure Message where
  type : MsgType
  fromId : ProcessId
  toId : ProcessId
  color : Option Color
deriving DecidableEq, Repr, Inhabited

/-! ### Color counting (JS `Map<Color, number>` in insertion order) -/

/-- Distinct colors of a stack in first-occurrence order: the key order of a
JS `Map` built by iterating the stack (setting an existing key keeps its
position).  Filtering the head out after deduplicating the tail gives the
same list as deduplicating the filtered tail, in structural recursion. -/
def keysOf : List Color → List Color
  | [] => []
  | c :: rest => c :: (keysOf rest).filter (fun d => d ≠ c)

/-- The entry list of the per-color count map, in insertion order. -/
def countsList (s : List Color) : List (Color × Nat) :=
  (keysOf s).map (fun c => (c, s.count c))

/-- `new Set(stack).size` -/
def setSize (s : List Color) : Nat := (keysOf s).length

/-- `entries.reduce((max, cur) => cur[1] > max[1] ? cur : max)`: the first
entry of maximal count. -/
def reduceMaxEntry : List (Color × Nat) → Option (Color × Nat)
  | [] => none
  | e :: rest => some (rest.foldl (fun m cur => if m.2 < cur.2 then cur else m) e)

/-- The dominant entry (color, count) of a stack, `none` on an empty stack. -/
def dominantEntry (s : List Color) : Option (Color × Nat) :=
  reduceMaxEntry (countsList s)

/-- The dominant color of a stack. -/
def dominantColor (s : List Color) : Option Color :=
  (dominantEntry s).map Prod.fst

/-- `Math.max(...counts.values())`, with 0 for an empty stack. -/
def maxCount (s : List Color) : Nat :=
  ((countsList s).map Prod.snd).foldl max 0

/-- Stable insertion, descending by count: the JS stable
`sort((a, b) => b[1] - a[1])` keeps earlier entries first among equals. -/
def insertByCountDesc (x : Color × Nat) : List (Color × Nat) → List (Color × Nat)
  | [] => [x]
  | y :: rest => if x.2 < y.2 then y :: insertByCountDesc x rest else x :: y :: rest

/-- Stable sort of count entries, descending by count. -/
def sortByCountDesc : List (Color × Nat) → List (Color × Nat)
  | [] => []
  | x :: rest => insertByCountDesc x (sortByCountDesc rest)

/-- All balls over all processes, in process order (the iteration order of
`getTotalColorCounts`). -/
def allTokens (ps : List ProcessState) : List Color :=
  ps.flatMap (fun p => p.stack)

/-- Look a process up by id (`processes.find(p => p.id === id)`). -/
def getProc (ps : List ProcessState) (pid : ProcessId) : Option ProcessState :=
  ps.find? (fun p => p.id = pid)

/-- Mutate the (unique) process with the given id in place. -/
def updateProc (ps : List ProcessState) (pid : ProcessId)
    (f : ProcessState → ProcessState) : List ProcessState :=
  ps.map (fun p => if p.id = pid then f p else p)

/-- `processes.some(p => p.id === pid)` -/
def hasProc (ps : List ProcessState) (pid : ProcessId) : Bool :=
  ps.any (fun p => p.id = pid)

/-! ### SystemStateService -/

/-- `canProcessImprove`: the process still lacks balls of its dominant color
that exist somewhere in the system. -/
def canProcessImprove (p : ProcessState) (ps : List ProcessState) : Bool :=
  if p.stack.isEmpty then false
  else
    match dominantEntry p.stack with
    | none => false
    | some (dc, dcount) =>
      let totalOfDominant := (allTokens ps).count dc
      decide (dcount < min totalOfDominant p.stack.length)

/-- `isPerfectMonochromeAchievable`: distinct colors must cover the process
count, the total must split evenly, and a greedy pass over the counts sorted
descending must hand each process a full single-color share.
One greedy step (`greedyTake`) finds the first color with at least `per`
balls, subtracts `per`, and deletes the entry when it reaches zero. -/
def greedyTake (per : Nat) : List (Color × Nat) → Option (List (Color × Nat))
  | [] => none
  | (c, k) :: rest =>
    if per ≤ k then
      if k - per = 0 then some rest else some ((c, k - per) :: rest)
    else (greedyTake per rest).map (fun r => (c, k) :: r)

/-- The greedy assignment loop over the process count. -/
def greedyLoop (remaining : List (Color × Nat)) (per : Nat) : Nat → Bool
  | 0 => true
  | k + 1 =>
    match greedyTake per remaining with
    | none => false
    | some r => greedyLoop r per k

/-- `isPerfectMonochromeAchievable(processes)`.  In JS, `totalBalls % 0` is
`NaN`, so with zero processes the divisibility test fails and the function
returns `false`; every count in the entry list is positive, so the
`count > 0` filter on the entries is the identity and is omitted.  When the
greedy loop succeeds it has assigned `processCount * ballsPerProcess` balls,
and the code finally compares that with `totalBalls`. -/
def isPerfectMonochromeAchievable (ps : List ProcessState) : Bool :=
  let totals := countsList (allTokens ps)
  let processCount := ps.length
  -- `totalBalls` = the sum of the per-color counts = the total ball count
  let totalBalls := (allTokens ps).length
  if totals.length < processCount then false
  else if processCount = 0 then false
  else if totalBalls % processCount ≠ 0 then false
  else
    let per := totalBalls / processCount
    greedyLoop (sortByCountDesc totals) per processCount
      && decide (processCount * per = totalBalls)

/-- `isOptimalConsensusReached`: no messages in transit and either perfect
monochrome everywhere (when feasible) or no process able to improve. -/
def isOptimalConsensusReached (ps : List ProcessState) (q : List Message) : Bool :=
  if 0 < q.length then false
  else if isPerfectMonochromeAchievable ps then
    ps.all (fun p => p.stack.isEmpty || decide (setSize p.stack = 1))
  else
    ps.all (fun p => p.stack.isEmpty || !canProcessImprove p ps)

/-- `isSystemComplete(processes, messageQueue)` -/
def isSystemComplete (ps : List ProcessState) (q : List Message) : Bool :=
  (ps.all (fun p => p.isDone) && q.isEmpty) || isOptimalConsensusReached ps q

/-- `calculatePotentialFunction`: Φ as the count of balls not matching their
holder's best-represented color. -/
def calculatePotentialFunction (ps : List ProcessState) : Nat :=
  ps.foldl
    (fun phi p =>
      if p.stack.isEmpty then phi else phi + (p.stack.length - maxCount p.stack))
    0

/-! ### ColorSelectionService (claim-based variant) -/

/-- The fixed priority ordering of `getColorPriorityForProcess`. -/
def colorPriorityOrder : ProcessId → List Color
  | .p1 => [.R, .G, .B]
  | .p2 => [.G, .B, .R]
  | .p3 => [.B, .R, .G]

/-- `getColorPriorityForProcess`: 1-based rank of the color in the process's
priority ordering. -/
def getColorPriorityForProcess (pid : ProcessId) (c : Color) : Nat :=
  (colorPriorityOrder pid).indexOf c + 1

/-- `estimateOtherProcessClaims`: at least two competing REQUESTs for this
color among the last ten messages. -/
def estimateOtherProcessClaims (p : ProcessState) (c : Color)
    (q : List Message) : Bool :=
  let recent := q.drop (q.length - 10)
  2 ≤ (recent.filter
    (fun m => m.type = MsgType.REQUEST && m.color = some c && m.fromId ≠ p.id)).length

/-- `shouldProcessClaimColor(process, color, count)`.
Percentage thresholds are exact: `count / totalBalls > 0.5` is
`2 * count > totalBalls`, `≥ 0.4` is `5 * count ≥ 2 * totalBalls`, and
`≥ 0.3` is `10 * count ≥ 3 * totalBalls`.  The weak-claim branch consults
`estimateOtherProcessClaims` with an empty message list. -/
def shouldProcessClaimColor (p : ProcessState) (c : Color) (count : Nat) : Bool :=
  let totalBalls := p.stack.length
  if totalBalls < 2 * count then true
  else if 2 * totalBalls ≤ 5 * count then
    decide (getColorPriorityForProcess p.id c = 1)
  else if 3 * totalBalls ≤ 10 * count then
    decide (getColorPriorityForProcess p.id c = 1)
      && !estimateOtherProcessClaims p c []
  else false

/-- The selection loop of `computeWantedColor`: the first color (descending
by count) the process should claim, else the fallback `stack[0]`. -/
def pickClaimed (p : ProcessState) : List (Color × Nat) → Color → Color
  | [], fallback => fallback
  | (c, k) :: rest, fallback =>
    if shouldProcessClaimColor p c k then c else pickClaimed p rest fallback

/-- `computeWantedColor(process)` (the message queue argument only feeds
`estimateOtherProcessClaims`, which is invoked on an empty list). -/
def computeWantedColor (p : ProcessState) : ProcessState :=
  match p.stack with
  | [] => p
  | c0 :: _ =>
    let sorted := sortByCountDesc (countsList p.stack)
    { p with wanted := some (pickClaimed p sorted c0) }

/-- The claimants of a color: active processes currently wanting it. -/
def wantersOf (ps : List ProcessState) (c : Color) : List ProcessState :=
  ps.filter (fun p => p.wanted = some c && !p.isDone)

/-- `detectColorConflicts`: some color is wanted by at least two active
processes. -/
def detectColorConflicts (ps : List ProcessState) : Bool :=
  [Color.R, Color.G, Color.B].any (fun c => 1 < (wantersOf ps c).length)

/-- `forceAlternativeColor(process, conflictColor)`: rewant the
best-represented color other than the conflicted one (no-op when the stack
holds no other color). -/
def forceAlternativeColor (p : ProcessState) (conflict : Color) : ProcessState :=
  let alternatives :=
    sortByCountDesc ((countsList p.stack).filter (fun e => e.1 ≠ conflict))
  match alternatives with
  | [] => p
  | (c, _) :: _ => { p with wanted := some c }

/-- Stable insertion, ascending by the priority rank for color `c` (the JS
stable `sort((a, b) => aPriority - bPriority)` over indexed claimants). -/
def insertByRank (c : Color) (x : Nat × ProcessState) :
    List (Nat × ProcessState) → List (Nat × ProcessState)
  | [] => [x]
  | y :: rest =>
    if getColorPriorityForProcess y.2.id c ≤ getColorPriorityForProcess x.2.id c
    then y :: insertByRank c x rest
    else x :: y :: rest

/-- Stable sort of indexed claimants by priority rank for color `c`. -/
def sortByRank (c : Color) : List (Nat × ProcessState) → List (Nat × ProcessState)
  | [] => []
  | x :: rest => insertByRank c x (sortByRank c rest)

/-- The fate of the claimant at position `i` during conflict resolution:
in a conflicted group the top-priority claimant keeps its color and every
other claimant is forced to an alternative. -/
def resolveOne (ps : List ProcessState) (i : Nat) (p : ProcessState) :
    ProcessState :=
  match p.wanted with
  | none => p
  | some c =>
    if p.isDone then p
    else
      let group := ps.enum.filter (fun jq => jq.2.wanted = some c && !jq.2.isDone)
      if group.length ≤ 1 then p
      else
        match (sortByRank c group).head? with
        | none => p
        | some (w, _) => if w = i then p else forceAlternativeColor p c

/-- `resolveColorConflicts(processes)`.  Groups are disjoint (a process has
one wanted color), so this per-process view matches the JS group-by-group
mutation; the winner is identified by its position to mirror object
identity. -/
def resolveColorConflicts (ps : List ProcessState) : List ProcessState :=
  ps.enum.map (fun ip => resolveOne ps ip.1 ip.2)

/-! ### PartnerSelectionService -/

/-- `calculatePartnerScore(process, candidate)`. -/
def calculatePartnerScore (p candidate : ProcessState) : Int :=
  match p.wanted with
  | none => 0
  | some w =>
    let score : Int := 3 * (candidate.stack.count w : Int)
    let score := score + (if candidate.wanted = some w then (-20 : Int) else 0)
    match candidate.wanted with
    | none => score
    | some cw =>
      score + 2 * ((p.stack.filter (fun c => c = cw && c ≠ w)).length : Int)

/-- The candidate scan of `choosePartner`: best partner so far and best
score, seeded with `(null, -1)` and updated on strict improvement. -/
def bestScan (p : ProcessState) (candidates : List ProcessState) :
    Option ProcessState × Int :=
  candidates.foldl
    (fun acc candidate =>
      if acc.2 < calculatePartnerScore p candidate
      then (some candidate, calculatePartnerScore p candidate)
      else acc)
    (none, -1)

/-- The round-robin fallback index: the position after the current partner in
the candidate ordering, cyclically; position 0 when there is no current
partner or it is no longer a candidate. -/
def roundRobinIdx (p : ProcessState) (others : List ProcessState) : Nat :=
  match p.partner with
  | none => 0
  | some pid =>
    match others.findIdx? (fun q => q.id = pid) with
    | none => 0
    | some i => (i + 1) % others.length

/-- The candidate pool of `choosePartner`: all other not-done processes. -/
def candidatesOf (p : ProcessState) (all : List ProcessState) : List ProcessState :=
  all.filter (fun q => q.id ≠ p.id && !q.isDone)

/-- `choosePartner(process, allProcesses)`: score all other active processes;
keep the best strictly positive scorer, otherwise fall back to round-robin;
clear the partner when no candidate remains. -/
def choosePartner (p : ProcessState) (all : List ProcessState) : ProcessState :=
  let others := candidatesOf p all
  if others.isEmpty then { p with partner := none }
  else
    let scan := bestScan p others
    match scan.1 with
    | none => { p with partner := some ((others.getD (roundRobinIdx p others) p).id) }
    | some b =>
      if scan.2 ≤ 0 then
        { p with partner := some ((others.getD (roundRobinIdx p others) p).id) }
      else { p with partner := some b.id }

/-! ### MessageHandlingService (feasibility-aware variant) and the engine

The engine record gathers the mutable fields of `BaseConsensusService`
touched by the protocol (the run history is a pure observer and is treated
separately, in the snapshot-aliasing model below). -/

structure Engine where
  processes : List ProcessState
  messageQueue : List Message
  totalExchanges : Nat
  perfectMonochromeAchievable : Bool
  isRunning : Bool
deriving DecidableEq, Repr, Inhabited

/-- The REQUEST a process sends to its partner (`sendRequest` pushes nothing
when the partner or the wanted color is missing). -/
def requestMessageOf (p : ProcessState) : List Message :=
  match p.partner, p.wanted with
  | some pt, some w => [⟨MsgType.REQUEST, p.id, pt, some w⟩]
  | _, _ => []

/-- `sendDoneMessages(process, allProcesses, messageQueue)`. -/
def doneMessagesFor (p : ProcessState) (ps : List ProcessState) : List Message :=
  (ps.filter (fun o => o.id ≠ p.id && !o.isDone)).map
    (fun o => ⟨MsgType.DONE, p.id, o.id, none⟩)

/-- Mark a process done (if it is not already) and broadcast DONE to every
other active process. -/
def markDoneAndBroadcast (e : Engine) (pid : ProcessId) : Engine :=
  match getProc e.processes pid with
  | none => e
  | some p =>
    if p.isDone then e
    else
      { e with
        processes := updateProc e.processes pid (fun q => { q with isDone := true })
        messageQueue := e.messageQueue ++ doneMessagesFor p e.processes }

/-- The scan shared by `canReceiveMore` (monochrome case) and
`otherProcessesHaveUnwantedDominantColor`: some other active process holds
the color `dc` while its own dominant color differs from `dc`. -/
def someOtherActiveHasUnwanted (pid : ProcessId) (ps : List ProcessState)
    (dc : Color) : Bool :=
  ps.any (fun o =>
    o.id ≠ pid && !o.isDone && o.stack.contains dc &&
      match dominantColor o.stack with
      | none => false
      | some oc => oc ≠ dc)

/-- `thisProcessCanGiveAwayUnwantedBalls`: the process holds a ball matching
some other active process's dominant color, other than its own dominant
color. -/
def canGiveAwayUnwanted (p : ProcessState) (ps : List ProcessState)
    (dc : Color) : Bool :=
  ps.any (fun o =>
    o.id ≠ p.id && !o.isDone &&
      match dominantColor o.stack with
      | none => false
      | some oc => p.stack.any (fun c => c = oc && c ≠ dc))

/-- `isProcessInOptimalState(process, allProcesses, perfectMonochromeAchievable)`.
The dominant share thresholds are exact: `≥ 0.80` is `5·count ≥ 4·size` and
`≥ 0.60` is `5·count ≥ 3·size`.  (The total color counts computed at the top
of the source function are never read and are omitted.) -/
def isProcessInOptimalState (p : ProcessState) (ps : List ProcessState)
    (feasible : Bool) : Bool :=
  if p.stack.isEmpty then true
  else if feasible then decide (setSize p.stack = 1)
  else
    match dominantEntry p.stack with
    | none => true
    | some (dc, dcount) =>
      if someOtherActiveHasUnwanted p.id ps dc || canGiveAwayUnwanted p ps dc
      then false
      else if setSize p.stack = 2 then decide (4 * p.stack.length ≤ 5 * dcount)
      else decide (3 * p.stack.length ≤ 5 * dcount)

/-- `checkMonochrome(process, allProcesses, messageQueue, perfectMonochromeAchievable)`:
empty stacks complete immediately; monochrome stacks complete unless another
active process still holds unwanted balls of the color, in which case (and
for mixed stacks) the optimal-state test decides. -/
def checkMonochrome (e : Engine) (pid : ProcessId) : Engine :=
  match getProc e.processes pid with
  | none => e
  | some p =>
    if p.stack.isEmpty then markDoneAndBroadcast e pid
    else if setSize p.stack = 1 then
      if !someOtherActiveHasUnwanted p.id e.processes (p.stack.headD Color.R) then
        markDoneAndBroadcast e pid
      else if isProcessInOptimalState p e.processes e.perfectMonochromeAchievable then
        markDoneAndBroadcast e pid
      else e
    else if isProcessInOptimalState p e.processes e.perfectMonochromeAchievable then
      markDoneAndBroadcast e pid
    else e

/-- The continuation shared by both ball handlers and the driver's seeding
loop: an active process recomputes its wanted color, re-selects its partner,
and issues a REQUEST when it has one. -/
def reissueRequest (e : Engine) (pid : ProcessId) : Engine :=
  match getProc e.processes pid with
  | none => e
  | some p =>
    if p.isDone then e
    else
      let ps1 := updateProc e.processes pid computeWantedColor
      let ps2 := updateProc ps1 pid (fun q => choosePartner q ps1)
      match getProc ps2 pid with
      | none => { e with processes := ps2 }
      | some p' =>
        { e with processes := ps2
                 messageQueue := e.messageQueue ++ requestMessageOf p' }

/-- `splice` of the first ball equal to the requested color that the holder
does not want. -/
def removeFirstMatching (s : List Color) (rc : Color) (w : Option Color) :
    List Color :=
  match s with
  | [] => []
  | c :: rest =>
    if c = rc && w ≠ some c then rest else c :: removeFirstMatching rest rc w

/-- `handleRequest(message, recipient, sender, ...)`: the recipient gives away
the first unwanted ball of the requested color (enqueuing a SEND and
re-checking its completion), then, if still active, re-enters the protocol. -/
def handleRequest (e : Engine) (rid sid : ProcessId) (mcolor : Option Color) :
    Engine :=
  match mcolor with
  | none => e
  | some rc =>
    let e1 :=
      match getProc e.processes rid with
      | none => e
      | some r =>
        if r.stack.any (fun c => c = rc && r.wanted ≠ some c) then
          checkMonochrome
            { e with
              processes := updateProc e.processes rid
                (fun q => { q with stack := removeFirstMatching q.stack rc q.wanted })
              messageQueue := e.messageQueue ++ [⟨MsgType.SEND, rid, sid, some rc⟩] }
            rid
        else e
    reissueRequest e1 rid

/-- `handleSend(message, recipient, ...)`: the ball is always appended to the
recipient's stack (even when it is already done) and the exchange counter
increments; then completion is re-checked and, if still active, the recipient
re-enters the protocol. -/
def handleSend (e : Engine) (rid : ProcessId) (mcolor : Option Color) : Engine :=
  match mcolor with
  | none => e
  | some c =>
    let e1 :=
      { e with
        processes := updateProc e.processes rid
          (fun q => { q with stack := q.stack ++ [c] })
        totalExchanges := e.totalExchanges + 1 }
    reissueRequest (checkMonochrome e1 rid) rid

/-- `handleDone(message, allProcesses)`: mark the named sender done. -/
def handleDone (e : Engine) (sid : ProcessId) : Engine :=
  { e with
    processes := updateProc e.processes sid (fun q => { q with isDone := true }) }

/-- One pass of `triggerNewRequests` for a single process: an active process
with no REQUEST of its own pending re-enters the protocol. -/
def triggerFor (e : Engine) (pid : ProcessId) : Engine :=
  match getProc e.processes pid with
  | none => e
  | some p =>
    if p.isDone then e
    else if e.messageQueue.any
        (fun m => m.fromId = pid && m.type = MsgType.REQUEST) then e
    else reissueRequest e pid

/-- `triggerNewRequests(allProcesses, messageQueue, ...)`, iterating the
processes in order with mutations visible to later iterations. -/
def triggerNewRequests (e : Engine) : Engine :=
  (e.processes.map (fun p => p.id)).foldl triggerFor e

/-- `processNextMessage`: on an empty queue, trigger fresh REQUESTs;
otherwise pop the front message and dispatch on its type, dropping it
silently when its recipient or sender is unknown. -/
def processNextMessage (e : Engine) : Engine :=
  match e.messageQueue with
  | [] => triggerNewRequests e
  | msg :: rest =>
    let e1 := { e with messageQueue := rest }
    match getProc e1.processes msg.toId, getProc e1.processes msg.fromId with
    | some _, some _ =>
      match msg.type with
      | MsgType.REQUEST => handleRequest e1 msg.toId msg.fromId msg.color
      | MsgType.SEND => handleSend e1 msg.toId msg.color
      | MsgType.DONE => handleDone e1 msg.fromId
    | _, _ => e1

/-! ### BaseConsensusService: the simulation driver -/

/-- `initializeProcesses` on a given initial distribution (an entry list
`Record<ProcessId, Color[]>`): fresh processes, empty queue, zeroed counter,
not running. -/
def initEngine (dist : List (ProcessId × List Color)) : Engine :=
  { processes := dist.map (fun pd => ⟨pd.1, pd.2, none, none, false⟩)
    messageQueue := []
    totalExchanges := 0
    perfectMonochromeAchievable := false
    isRunning := false }

/-- `forceAllDone`: mark every remaining active process done (the forced
completion of the stagnation and safety valves). -/
def forceAllDone (ps : List ProcessState) : List ProcessState :=
  ps.map (fun p => { p with isDone := true })

/-- The pre-loop phase of `startConsensus`: cache feasibility, run the
initial completion check on every process, then have every active process
compute its wanted color, choose a partner and issue its first REQUEST. -/
def initialChecks (e : Engine) : Engine :=
  let e1 := { e with
    perfectMonochromeAchievable := isPerfectMonochromeAchievable e.processes }
  let e2 := (e1.processes.map (fun p => p.id)).foldl checkMonochrome e1
  (e2.processes.map (fun p => p.id)).foldl reissueRequest e2

/-- The mutable locals of the run loop. -/
structure LoopState where
  engine : Engine
  iterationCount : Nat
  /-- `lastPotentialFunction`; `none` models the `Number.MAX_SAFE_INTEGER`
  seed, which no Φ of a run ever reaches. -/
  lastPhi : Option Nat
  stagnationCounter : Nat
deriving Repr

/-- The conflict pass of the periodic block: resolve color conflicts when
any are detected. -/
def conflictPass (e : Engine) : Engine :=
  if detectColorConflicts e.processes then
    { e with processes := resolveColorConflicts e.processes }
  else e

/-- `currentPotentialFunction >= lastPotentialFunction`; the `none` seed
stands for `Number.MAX_SAFE_INTEGER`, which no potential value reaches. -/
def staleOf (last : Option Nat) (phi : Nat) : Bool :=
  match last with
  | none => false
  | some l => decide (l ≤ phi)

/-- The periodic block of the run loop (entered when the iteration count is a
multiple of ten): resolve detected color conflicts, then update the
stagnation counter against the last potential value; five consecutive
non-improving checks force every process done and break (`true` in the
second component). -/
def stagnationCheck (ls : LoopState) : LoopState × Bool :=
  if ls.iterationCount % 10 = 0 then
    let e := conflictPass ls.engine
    let phi := calculatePotentialFunction e.processes
    if staleOf ls.lastPhi phi then
      if 5 ≤ ls.stagnationCounter + 1 then
        ({ engine := { e with processes := forceAllDone e.processes }
           iterationCount := ls.iterationCount
           lastPhi := ls.lastPhi
           stagnationCounter := ls.stagnationCounter + 1 }, true)
      else
        ({ engine := e
           iterationCount := ls.iterationCount
           lastPhi := some phi
           stagnationCounter := ls.stagnationCounter + 1 }, false)
    else
      ({ engine := e
         iterationCount := ls.iterationCount
         lastPhi := some phi
         stagnationCounter := 0 }, false)
  else (ls, false)

/-- The run loop of `startConsensus`, with explicit fuel: while the system is
not complete, dispatch the next message, run the periodic
conflict/stagnation block, and enforce the 200-iteration safety valve.
Returns the engine and the iteration count at loop exit, or `none` when the
fuel runs out (the termination theorem shows fuel 202 always suffices). -/
def runLoop : Nat → LoopState → Option (Engine × Nat)
  | 0, _ => none
  | fuel + 1, ls =>
    if isSystemComplete ls.engine.processes ls.engine.messageQueue then
      some (ls.engine, ls.iterationCount)
    else
      let ls1 : LoopState :=
        { engine := processNextMessage ls.engine
          iterationCount := ls.iterationCount + 1
          lastPhi := ls.lastPhi
          stagnationCounter := ls.stagnationCounter }
      let sb := stagnationCheck ls1
      if sb.2 then some (sb.1.engine, sb.1.iterationCount)
      else if 200 < sb.1.iterationCount then
        some ({ sb.1.engine with
                 processes := forceAllDone (resolveColorConflicts sb.1.engine.processes) },
              sb.1.iterationCount)
      else runLoop fuel sb.1

/-- The post-loop phase: a final completion check on every process. -/
def finalChecks (e : Engine) : Engine :=
  (e.processes.map (fun p => p.id)).foldl checkMonochrome e

/-- `startConsensus()`: rejected with an error while already running (the
guard throws before any mutation, so the engine is returned untouched);
otherwise the engine runs the pre-loop phase, the loop, and the final check,
and reports the iteration count. -/
def startConsensus (e : Engine) : Engine × Except String Nat :=
  if e.isRunning then
    (e, Except.error "Consensus algorithm is already running")
  else
    let e0 := initialChecks { e with isRunning := true }
    match runLoop 202 ⟨e0, 0, none, 0⟩ with
    | none => (e0, Except.error "out of fuel")
    | some (e1, iters) =>
      let e2 := finalChecks e1
      ({ e2 with isRunning := false }, Except.ok iters)

/-! ### Conservation quantities and well-formedness -/

/-- Balls of a color held in process stacks. -/
def stackTokens (ps : List ProcessState) (c : Color) : Nat :=
  (allTokens ps).count c

/-- In-flight SEND messages carrying a ball of a color. -/
def inFlight (q : List Message) (c : Color) : Nat :=
  (q.filter (fun m => m.type = MsgType.SEND && m.color = some c)).length

/-- The conserved per-color quantity: balls in stacks plus balls in transit. -/
def tokenCount (e : Engine) (c : Color) : Nat :=
  stackTokens e.processes c + inFlight e.messageQueue c

/-- In-flight SEND messages carrying any ball. -/
def sendsInFlight (q : List Message) : Nat :=
  (q.filter (fun m => m.type = MsgType.SEND && m.color.isSome)).length

/-- The conserved total: the sum of all stack sizes plus the number of
in-flight SEND messages carrying a ball. -/
def totalTokens (e : Engine) : Nat :=
  (e.processes.map (fun p => p.stack.length)).sum + sendsInFlight e.messageQueue

/-- Process ids in list order. -/
def idsOf (ps : List ProcessState) : List ProcessId :=
  ps.map (fun p => p.id)

/-- Engine well-formedness for conservation: process ids are distinct (JS
mutates one object per id) and every queued SEND names a known recipient and
sender (the engine only ever enqueues SENDs between found processes, so a
SEND is never silently dropped). -/
def QueueWF (e : Engine) : Prop :=
  (idsOf e.processes).Nodup ∧
    ∀ m ∈ e.messageQueue, m.type = MsgType.SEND →
      hasProc e.processes m.toId = true ∧ hasProc e.processes m.fromId = true

/-! ### The engine operations as a step relation

One constructor per mutation the driver performs: dispatching a message,
a per-process completion check, a per-process protocol re-entry
(wanted/partner/REQUEST), conflict resolution, the forced completion of the
stagnation and safety valves, caching the feasibility bit, and toggling the
running flag.  Every state of a run is reached from the freshly initialized
engine by a sequence of these steps. -/

inductive EngineStep : Engine → Engine → Prop where
  | dispatch (e : Engine) : EngineStep e (processNextMessage e)
  | completionCheck (e : Engine) (pid : ProcessId) :
      EngineStep e (checkMonochrome e pid)
  | protocolReentry (e : Engine) (pid : ProcessId) :
      EngineStep e (reissueRequest e pid)
  | conflictResolution (e : Engine) :
      EngineStep e { e with processes := resolveColorConflicts e.processes }
  | forcedCompletion (e : Engine) :
      EngineStep e { e with processes := forceAllDone e.processes }
  | cacheFeasibility (e : Engine) (b : Bool) :
      EngineStep e { e with perfectMonochromeAchievable := b }
  | toggleRunning (e : Engine) (b : Bool) :
      EngineStep e { e with isRunning := b }

/-- Reachability of an engine state from an initial state of the run. -/
def EngineReachable (e e' : Engine) : Prop :=
  Relation.ReflTransGen EngineStep e e'

/-- Pointwise relation between a process list and its successor: ids are
kept in place and the done flag never falls back from true. -/
def DoneMono (ps ps' : List ProcessState) : Prop :=
  List.Forall₂ (fun p p' => p'.id = p.id ∧ (p.isDone = true → p'.isDone = true))
    ps ps'

/-! ### The spec-side per-process completion rule (for the refinement claim)

Transcribed from the spec's words: an empty stack is complete; when a
perfect outcome is feasible, complete iff the stack is monochrome (at most
one distinct color); when infeasible, complete iff (a) no other active
process holds unwanted balls of this process's dominant color, (b) this
process holds no unwanted ball matching another active process's dominant
color, and (c) the dominant share is at least 0.80 when the stack spans
exactly two colors and at least 0.60 otherwise. -/
def processCompleteSpec (p : ProcessState) (ps : List ProcessState)
    (feasible : Bool) : Bool :=
  if p.stack.isEmpty then true
  else if feasible then decide (setSize p.stack ≤ 1)
  else
    match dominantEntry p.stack with
    | none => true
    | some (dc, dcount) =>
      !someOtherActiveHasUnwanted p.id ps dc
        && !canGiveAwayUnwanted p ps dc
        && (if setSize p.stack = 2 then decide (4 * p.stack.length ≤ 5 * dcount)
            else decide (3 * p.stack.length ≤ 5 * dcount))

end Consensus

/-! ### Snapshot aliasing (`createSystemState`)

`createSystemState` copies each process with the object spread `{ ...p }`
and the queue with `[...messageQueue]`.  The spread is a shallow copy: the
copied record holds the same *reference* to the live stack array.  To state
what a snapshot later shows, arrays live in an explicit heap and process
records hold references into it. -/

namespace ConsensusHeap

open Consensus

/-- A process record as stored on the JS heap: `stack` is a reference to an
array object. -/
structure PRef where
  id : ProcessId
  stackRef : Nat
  wanted : Option Color
  partner : Option ProcessId
  isDone : Bool
deriving DecidableEq, Repr

/-- The engine with heap-allocated stack arrays. -/
structure EngineH where
  procs : List PRef
  heap : Nat → List Color
  queue : List Message

/-- A `SystemState` snapshot as `createSystemState` builds it: per-process
record copies (field by field, so `stackRef` is shared with the live
record) and a copy of the queue list. -/
structure SnapshotH where
  procs : List PRef
  messages : List Message

/-- `createSystemState(processes, messageQueue, totalExchanges)`:
`processes.map(p => ({ ...p }))` and `[...messageQueue]`. -/
def createSystemStateH (e : EngineH) : SnapshotH :=
  { procs := e.procs.map (fun p => ⟨p.id, p.stackRef, p.wanted, p.partner, p.isDone⟩)
    messages := e.queue }

/-- The in-place stack mutation of `handleSend`:
`recipient.stack.push(message.color)` writes through the recipient's stack
reference. -/
def pushBallH (e : EngineH) (pid : ProcessId) (c : Color) : EngineH :=
  match e.procs.find? (fun p => p.id = pid) with
  | none => e
  | some p =>
    { e with heap := fun r => if r = p.stackRef then e.heap r ++ [c] else e.heap r }

/-- What the snapshot's process records show once their stack references are
read back against a heap. -/
def snapshotStacks (s : SnapshotH) (heap : Nat → List Color) : List (List Color) :=
  s.procs.map (fun p => heap p.stackRef)

/-- A one-process engine used to exhibit the aliasing. -/
def engineH0 : EngineH :=
  { procs := [⟨ProcessId.p1, 0, none, none, false⟩]
    heap := fun r => if r = 0 then [Color.R] else []
    queue := [] }

end ConsensusHeap

namespace Consensus

/-- An engine that is mid-run, used as a witness input. -/
def busyEngine : Engine :=
  { processes := [], messageQueue := [], totalExchanges := 0,
    perfectMonochromeAchievable := false, isRunning := true }

/-- An engine holding one already-done process, used as a witness input. -/
def doneEngine : Engine :=
  { processes := [⟨ProcessId.p1, [Color.R, Color.G], some Color.R, none, true⟩],
    messageQueue := [], totalExchanges := 0,
    perfectMonochromeAchievable := false, isRunning := true }

/-- A well-formed two-process engine with one SEND in flight, used as a
witness input. -/
def midRunEngine : Engine :=
  { processes :=
      [⟨ProcessId.p1, [Color.R], some Color.R, some ProcessId.p2, false⟩,
       ⟨ProcessId.p2, [Color.G], some Color.G, some ProcessId.p1, false⟩],
    messageQueue := [⟨MsgType.SEND, ProcessId.p1, ProcessId.p2, some Color.R⟩],
    totalExchanges := 0, perfectMonochromeAchievable := false,
    isRunning := true }

/-! ## Lemmas about the run loop -/

theorem stagnationCheck_fst_iterationCount (e : Engine) (ic : Nat)
    (lp : Option Nat) (sc : Nat) :
    (stagnationCheck ⟨e, ic, lp, sc⟩).1.iterationCount = ic := by
  unfold stagnationCheck
  dsimp only
  split_ifs <;> rfl

theorem forceAllDone_all (ps : List ProcessState) :
    (forceAllDone ps).all (fun p => p.isDone) = true := by
  simp [forceAllDone, List.all_eq_true]

theorem stagnationCheck_snd_cases (ls : LoopState) :
    (stagnationCheck ls).2 = false ∨
      (stagnationCheck ls).1.engine.processes =
        forceAllDone (conflictPass ls.engine).processes := by
  unfold stagnationCheck
  dsimp only
  split_ifs <;> first | exact Or.inl rfl | exact Or.inr rfl

theorem stagnationCheck_break_allDone (ls : LoopState)
    (h : (stagnationCheck ls).2 = true) :
    (stagnationCheck ls).1.engine.processes.all (fun p => p.isDone) = true := by
  rcases stagnationCheck_snd_cases ls with hc | hc
  · rw [hc] at h; exact absurd h (by simp)
  · rw [hc]; exact forceAllDone_all _

theorem runLoop_isSome : ∀ (fuel : Nat) (ls : LoopState),
    202 ≤ fuel + ls.iterationCount → ls.iterationCount ≤ 201 →
    (runLoop fuel ls).isSome := by
  intro fuel
  induction fuel with
  | zero => intro ls h1 h2; omega
  | succ n ih =>
    intro ls h1 h2
    unfold runLoop
    split
    · rfl
    · dsimp only
      split
      · rfl
      · split
        · rfl
        · rename_i hnle
          rw [stagnationCheck_fst_iterationCount] at hnle
          apply ih
          · rw [stagnationCheck_fst_iterationCount]
            omega
          · rw [stagnationCheck_fst_iterationCount]
            omega

theorem runLoop_exit : ∀ (fuel : Nat) (ls : LoopState) (e' : Engine) (n : Nat),
    runLoop fuel ls = some (e', n) → ls.iterationCount ≤ 200 →
    n ≤ 201 ∧ (isSystemComplete e'.processes e'.messageQueue = true ∨
      e'.processes.all (fun p => p.isDone) = true) := by
  intro fuel
  induction fuel with
  | zero => intro ls e' n h hle; simp [runLoop] at h
  | succ m ih =>
    intro ls e' n h hle
    unfold runLoop at h
    split at h
    · rename_i hcomp
      simp only [Option.some.injEq, Prod.mk.injEq] at h
      obtain ⟨he, hn⟩ := h
      subst he; subst hn
      exact ⟨by omega, Or.inl hcomp⟩
    · dsimp only at h
      split at h
      · rename_i hbrk
        simp only [Option.some.injEq, Prod.mk.injEq] at h
        obtain ⟨he, hn⟩ := h
        subst he; subst hn
        refine ⟨?_, Or.inr (stagnationCheck_break_allDone _ hbrk)⟩
        rw [stagnationCheck_fst_iterationCount]
        omega
      · split at h
        · rename_i hgt
          rw [stagnationCheck_fst_iterationCount] at hgt
          simp only [Option.some.injEq, Prod.mk.injEq] at h
          obtain ⟨he, hn⟩ := h
          subst he; subst hn
          refine ⟨?_, Or.inr (forceAllDone_all _)⟩
          rw [stagnationCheck_fst_iterationCount]
          omega
        · rename_i hnle
          rw [stagnationCheck_fst_iterationCount] at hnle
          apply ih _ _ _ h
          rw [stagnationCheck_fst_iterationCount]
          omega

/-! ## C10: system-level completeness requires an empty queue -/

/-- C10: whenever the system-level completeness test returns true the message
queue is empty — any in-flight message makes `isSystemComplete` false in both
its all-done branch and its optimal-consensus branch. -/
theorem complete_implies_queue_empty (ps : List ProcessState) (q : List Message)
    (h : isSystemComplete ps q = true) : q = [] := by
  cases q with
  | nil => rfl
  | cons m rest =>
    exfalso
    simp [isSystemComplete, isOptimalConsensusReached] at h

theorem complete_implies_queue_empty_witness :
    isSystemComplete [⟨ProcessId.p1, [Color.R], none, none, true⟩] [] = true ∧
      ([] : List Message) = [] :=
  ⟨by decide,
    complete_implies_queue_empty [⟨ProcessId.p1, [Color.R], none, none, true⟩] []
      (by decide)⟩

/-! ## C8: start is rejected while running and leaves the engine untouched -/

/-- C8: `startConsensus` on a running engine returns the explicit
already-running error together with the engine unchanged; on a non-running
engine it succeeds with an iteration count. -/
theorem start_rejects_reentry (e : Engine) :
    (e.isRunning = true →
      startConsensus e = (e, Except.error "Consensus algorithm is already running"))
    ∧ (e.isRunning = false → ∃ n, (startConsensus e).2 = Except.ok n) := by
  constructor
  · intro h
    unfold startConsensus
    rw [if_pos h]
  · intro h
    unfold startConsensus
    rw [if_neg (by simp [h])]
    have hs := runLoop_isSome 202
      ⟨initialChecks { e with isRunning := true }, 0, none, 0⟩ (by simp) (by simp)
    obtain ⟨⟨e1, n⟩, hsome⟩ := Option.isSome_iff_exists.mp hs
    dsimp only
    rw [hsome]
    exact ⟨n, rfl⟩

theorem start_rejects_reentry_witness :
    busyEngine.isRunning = true ∧
      startConsensus busyEngine =
        (busyEngine, Except.error "Consensus algorithm is already running") :=
  ⟨rfl, (start_rejects_reentry busyEngine).1 rfl⟩

/-! ## C7: snapshots alias the live stack arrays -/

/-- C7 (refuting the claimed detachment): after taking a snapshot of a
one-process engine whose stack array holds `[R]`, a single in-place push of
`G` onto the live stack makes the snapshot's recorded process stack read
`[R, G]` — the spread copy `{ ...p }` shares the stack array reference, so
the snapshot is not detached from later engine mutations. -/
theorem snapshot_stack_aliasing :
    ConsensusHeap.snapshotStacks
        (ConsensusHeap.createSystemStateH ConsensusHeap.engineH0)
        ConsensusHeap.engineH0.heap = [[Color.R]] ∧
      ConsensusHeap.snapshotStacks
        (ConsensusHeap.createSystemStateH ConsensusHeap.engineH0)
        (ConsensusHeap.pushBallH ConsensusHeap.engineH0 ProcessId.p1 Color.G).heap
        = [[Color.R, Color.G]] ∧
      ConsensusHeap.snapshotStacks
        (ConsensusHeap.createSystemStateH ConsensusHeap.engineH0)
        (ConsensusHeap.pushBallH ConsensusHeap.engineH0 ProcessId.p1 Color.G).heap
        ≠ ConsensusHeap.snapshotStacks
            (ConsensusHeap.createSystemStateH ConsensusHeap.engineH0)
            ConsensusHeap.engineH0.heap := by
  refine ⟨rfl, rfl, ?_⟩
  decide

/-! ## C2: termination of the run loop -/

/-- The distribution on which the run forced by stagnation ends with
messages still in flight. -/
def distStuck : List (ProcessId × List Color) :=
  [(ProcessId.p1, [Color.R, Color.R, Color.B]),
   (ProcessId.p2, [Color.G, Color.G, Color.B])]

/-- C2 (counterexample): on the two-process distribution
`P1 = [R,R,B]`, `P2 = [G,G,B]` — which has at least one process and at
least one token — the run terminates (stagnation fires at iteration 60),
but the final system state reports `complete = false`: the stagnation valve
forces every process done while two REQUEST messages are still in the
queue, and the completeness test requires an empty queue. -/
theorem run_can_end_incomplete :
    (startConsensus (initEngine distStuck)).2 = Except.ok 60 ∧
      isSystemComplete (startConsensus (initEngine distStuck)).1.processes
        (startConsensus (initEngine distStuck)).1.messageQueue = false := by
  constructor
  · rfl
  · rfl

/-- C2 (amended): for every initial distribution with at least one process
and at least one token, the run loop terminates within the configured
ceiling — at most 201 dispatch iterations, through normal completion, the
stagnation fallback, or the safety valve — and at loop exit either the
system state is complete (normal exit) or every process has been forced
done (forced exits, which may leave messages in flight); `startConsensus`
then reports the loop's iteration count. -/
theorem run_terminates_within_ceiling (dist : List (ProcessId × List Color))
    (h1 : dist ≠ []) (h2 : 1 ≤ ((dist.map Prod.snd).flatten).length) :
    ∃ e' n,
      runLoop 202
          ⟨initialChecks { initEngine dist with isRunning := true }, 0, none, 0⟩
        = some (e', n) ∧
      n ≤ 201 ∧
      (isSystemComplete e'.processes e'.messageQueue = true ∨
        e'.processes.all (fun p => p.isDone) = true) ∧
      (startConsensus (initEngine dist)).2 = Except.ok n := by
  have hs := runLoop_isSome 202
    ⟨initialChecks { initEngine dist with isRunning := true }, 0, none, 0⟩
    (by simp) (by simp)
  obtain ⟨⟨e1, n⟩, hsome⟩ := Option.isSome_iff_exists.mp hs
  obtain ⟨hn, hdone⟩ := runLoop_exit 202 _ _ _ hsome (by simp)
  refine ⟨e1, n, hsome, hn, hdone, ?_⟩
  unfold startConsensus
  rw [if_neg (by simp [initEngine])]
  dsimp only
  rw [hsome]

theorem run_terminates_within_ceiling_witness :
    ([(ProcessId.p1, [Color.R])] : List (ProcessId × List Color)) ≠ [] ∧
      ∃ e' n,
        runLoop 202
            ⟨initialChecks
              { initEngine [(ProcessId.p1, [Color.R])] with isRunning := true },
              0, none, 0⟩
          = some (e', n) ∧
        n ≤ 201 ∧
        (isSystemComplete e'.processes e'.messageQueue = true ∨
          e'.processes.all (fun p => p.isDone) = true) ∧
        (startConsensus (initEngine [(ProcessId.p1, [Color.R])])).2 = Except.ok n :=
  ⟨by decide,
    run_terminates_within_ceiling [(ProcessId.p1, [Color.R])] (by decide) (by decide)⟩

/-- C5 (counterexample): on the stack `[R, G, G, B, B]` of process 1 no
color passes the claim thresholds (G and B sit at 40% with priority ranks 2
and 3 for process 1, R at 20%), so `computeWantedColor` falls back to
`stack[0] = R` — a color with strictly fewer occurrences than G. -/
theorem computeWanted_picks_nonmaximal :
    (computeWantedColor ⟨ProcessId.p1, [Color.R, Color.G, Color.G, Color.B, Color.B],
        none, none, false⟩).wanted = some Color.R ∧
      [Color.R, Color.G, Color.G, Color.B, Color.B].count Color.R <
        [Color.R, Color.G, Color.G, Color.B, Color.B].count Color.G := by
  constructor
  · rfl
  · decide

/-! ## Color-counting lemmas -/

theorem mem_keysOf {a : Color} : ∀ {s : List Color}, a ∈ keysOf s ↔ a ∈ s := by
  intro s
  induction s with
  | nil => simp [keysOf]
  | cons c rest ih =>
    by_cases hac : a = c
    · subst hac; simp [keysOf]
    · simp only [keysOf, List.mem_cons, List.mem_filter, ih]
      constructor
      · rintro (h | ⟨h, -⟩)
        · exact Or.inl h
        · exact Or.inr h
      · rintro (h | h)
        · exact Or.inl h
        · exact Or.inr ⟨h, by simpa using hac⟩

theorem keysOf_ne_nil {c : Color} {rest : List Color} : keysOf (c :: rest) ≠ [] := by
  simp [keysOf]

theorem setSize_pos {c : Color} {rest : List Color} : 0 < setSize (c :: rest) := by
  simp [setSize, keysOf]

theorem setSize_one_all_eq {c : Color} {rest : List Color}
    (h : setSize (c :: rest) = 1) : ∀ x ∈ c :: rest, x = c := by
  have hfil : (keysOf rest).filter (fun d => d ≠ c) = [] := by
    have := h
    simp only [setSize, keysOf, List.length_cons, Nat.succ_inj] at this
    exact List.eq_nil_of_length_eq_zero this
  intro x hx
  rcases List.mem_cons.mp hx with hx | hx
  · exact hx
  · by_contra hne
    have hmem : x ∈ (keysOf rest).filter (fun d => d ≠ c) := by
      rw [List.mem_filter]
      exact ⟨mem_keysOf.mpr hx, by simpa using hne⟩
    rw [hfil] at hmem
    exact absurd hmem (List.not_mem_nil x)

theorem keysOf_of_all_eq {c : Color} {rest : List Color}
    (hall : ∀ x ∈ c :: rest, x = c) : keysOf (c :: rest) = [c] := by
  simp only [keysOf, List.cons.injEq, true_and]
  rw [List.filter_eq_nil_iff]
  intro a ha
  have : a = c := hall a (List.mem_cons.mpr (Or.inr (mem_keysOf.mp ha)))
  simp [this]

theorem countsList_of_all_eq {c : Color} {rest : List Color}
    (hall : ∀ x ∈ c :: rest, x = c) :
    countsList (c :: rest) = [(c, (c :: rest).length)] := by
  unfold countsList
  rw [keysOf_of_all_eq hall]
  simp only [List.map_cons, List.map_nil, List.cons.injEq, and_true, Prod.mk.injEq,
    true_and]
  exact List.count_eq_length.mpr (fun b hb => ((hall b hb).symm : c = b))

theorem dominantEntry_of_all_eq {c : Color} {rest : List Color}
    (hall : ∀ x ∈ c :: rest, x = c) :
    dominantEntry (c :: rest) = some (c, (c :: rest).length) := by
  unfold dominantEntry
  rw [countsList_of_all_eq hall]
  rfl

/-! ## C3: the per-process completion test matches the oracle's rule -/

/-- C3: `checkMonochrome` marks a process complete exactly when the rule
`processCompleteSpec` transcribed from the spec holds: empty stacks are
complete; under feasibility completeness is monochromality; otherwise it is
the conjunction of the nothing-to-gain check, the nothing-to-give check, and
the 0.80 / 0.60 dominant-share threshold. -/
theorem completion_check_matches_oracle (e : Engine) (pid : ProcessId)
    (p : ProcessState) (h : getProc e.processes pid = some p) :
    checkMonochrome e pid =
      if processCompleteSpec p e.processes e.perfectMonochromeAchievable
      then markDoneAndBroadcast e pid else e := by
  unfold checkMonochrome
  rw [h]
  dsimp only
  by_cases hemp : p.stack.isEmpty
  · have hspec : processCompleteSpec p e.processes e.perfectMonochromeAchievable
        = true := by
      unfold processCompleteSpec
      rw [if_pos hemp]
    rw [if_pos hemp, hspec, if_pos rfl]
  · have he : p.stack.isEmpty = false := by simpa using hemp
    obtain ⟨c, rest, hs⟩ : ∃ a t, p.stack = a :: t := by
      rcases hst : p.stack with _ | ⟨a, t⟩
      · rw [hst] at he; simp at he
      · exact ⟨a, t, rfl⟩
    rw [if_neg (by simp [he])]
    by_cases hmono : setSize p.stack = 1
    · -- monochrome stack: every ball is the head color `c`
      have hall : ∀ x ∈ p.stack, x = c := by
        rw [hs]
        exact setSize_one_all_eq (by rw [← hs]; exact hmono)
      have hdom : dominantEntry p.stack = some (c, p.stack.length) := by
        rw [hs]
        refine Eq.trans (dominantEntry_of_all_eq ?_) ?_
        · rw [← hs]; exact hall
        · rw [← hs]
      have hhead : p.stack.headD Color.R = c := by rw [hs]; rfl
      have hcangive : canGiveAwayUnwanted p e.processes c = false := by
        unfold canGiveAwayUnwanted
        rw [List.any_eq_false]
        intro o ho
        have hinner :
            (match dominantColor o.stack with
              | none => false
              | some oc => p.stack.any (fun x => x = oc && x ≠ c)) = false := by
          rcases dominantColor o.stack with _ | oc
          · rfl
          · rw [List.any_eq_false]
            intro x hx
            rw [hall x hx]
            simp
        rw [hinner]
        simp
      have hthresh :
          (if setSize p.stack = 2 then decide (4 * p.stack.length ≤ 5 * p.stack.length)
           else decide (3 * p.stack.length ≤ 5 * p.stack.length)) = true := by
        rw [if_neg (by omega)]
        rw [decide_eq_true_iff]
        omega
      rw [if_pos hmono, hhead]
      by_cases hf : e.perfectMonochromeAchievable
      · have hspec : processCompleteSpec p e.processes e.perfectMonochromeAchievable
            = true := by
          unfold processCompleteSpec
          rw [if_neg (by simp [he]), if_pos hf, decide_eq_true_iff]
          omega
        rw [hspec, if_pos rfl]
        by_cases hso : someOtherActiveHasUnwanted p.id e.processes c
        · rw [if_neg (by simp [hso])]
          have hopt : isProcessInOptimalState p e.processes
              e.perfectMonochromeAchievable = true := by
            unfold isProcessInOptimalState
            rw [if_neg (by simp [he]), if_pos hf, decide_eq_true_iff]
            exact hmono
          rw [hopt, if_pos rfl]
        · rw [if_pos (by simp [Bool.not_eq_true] at hso; simp [hso])]
      · have hfb : e.perfectMonochromeAchievable = false := by
          simpa using hf
        have hspec : processCompleteSpec p e.processes e.perfectMonochromeAchievable
            = !someOtherActiveHasUnwanted p.id e.processes c := by
          unfold processCompleteSpec
          rw [if_neg (by simp [he]), if_neg (by simp [hfb]), hdom]
          dsimp only
          rw [hcangive, hthresh]
          simp
        rw [hspec]
        by_cases hso : someOtherActiveHasUnwanted p.id e.processes c
        · rw [if_neg (by simp [hso]), hso]
          have hopt : isProcessInOptimalState p e.processes
              e.perfectMonochromeAchievable = false := by
            unfold isProcessInOptimalState
            rw [if_neg (by simp [he]), if_neg (by simp [hfb]), hdom]
            dsimp only
            rw [hso]
            simp
          rw [hopt]
          simp
        · have hsob : someOtherActiveHasUnwanted p.id e.processes c = false := by
            simpa using hso
          rw [hsob]
          simp
    · -- mixed stack: the optimal-state test decides on both sides
      rw [if_neg hmono]
      have hge : 0 < setSize p.stack := by rw [hs]; exact setSize_pos
      by_cases hf : e.perfectMonochromeAchievable
      · have hopt : isProcessInOptimalState p e.processes
            e.perfectMonochromeAchievable = false := by
          unfold isProcessInOptimalState
          rw [if_neg (by simp [he]), if_pos hf]
          simp [hmono]
        have hspec : processCompleteSpec p e.processes e.perfectMonochromeAchievable
            = false := by
          unfold processCompleteSpec
          rw [if_neg (by simp [he]), if_pos hf]
          rw [decide_eq_false_iff_not]
          omega
        rw [hopt, hspec]
      · have hfb : e.perfectMonochromeAchievable = false := by simpa using hf
        have heq : isProcessInOptimalState p e.processes e.perfectMonochromeAchievable
            = processCompleteSpec p e.processes e.perfectMonochromeAchievable := by
          unfold isProcessInOptimalState processCompleteSpec
          rw [if_neg (by simp [hs]), if_neg (by simp [hfb]),
            if_neg (by simp [hs]), if_neg (by simp [hfb])]
          rcases dominantEntry p.stack with _ | ⟨dc, dcount⟩
          · rfl
          · cases hso : someOtherActiveHasUnwanted p.id e.processes dc <;>
              cases hcg : canGiveAwayUnwanted p e.processes dc <;> simp
        rw [heq]

/-! ## Sorting lemmas for the count-descending order -/

theorem insertByCountDesc_perm (x : Color × Nat) (l : List (Color × Nat)) :
    List.Perm (insertByCountDesc x l) (x :: l) := by
  induction l with
  | nil => rfl
  | cons y rest ih =>
    unfold insertByCountDesc
    split
    · exact ((ih.cons y).trans (List.Perm.swap x y rest))
    · rfl

theorem sortByCountDesc_perm (l : List (Color × Nat)) :
    List.Perm (sortByCountDesc l) l := by
  induction l with
  | nil => rfl
  | cons x rest ih =>
    exact (insertByCountDesc_perm x (sortByCountDesc rest)).trans (ih.cons x)

theorem mem_sortByCountDesc {y : Color × Nat} {l : List (Color × Nat)} :
    y ∈ sortByCountDesc l ↔ y ∈ l :=
  (sortByCountDesc_perm l).mem_iff

theorem insertByCountDesc_sorted (x : Color × Nat) (l : List (Color × Nat))
    (h : List.Sorted (fun a b : Color × Nat => b.2 ≤ a.2) l) :
    List.Sorted (fun a b : Color × Nat => b.2 ≤ a.2) (insertByCountDesc x l) := by
  induction l with
  | nil => simp [insertByCountDesc]
  | cons y rest ih =>
    rw [List.sorted_cons] at h
    obtain ⟨hy, hrest⟩ := h
    unfold insertByCountDesc
    split
    · rename_i hlt
      rw [List.sorted_cons]
      refine ⟨?_, ih hrest⟩
      intro b hb
      rcases List.mem_cons.mp ((insertByCountDesc_perm x rest).mem_iff.mp hb) with
        hb' | hb'
      · subst hb'; omega
      · exact hy b hb'
    · rename_i hnlt
      rw [List.sorted_cons]
      refine ⟨?_, by rw [List.sorted_cons]; exact ⟨hy, hrest⟩⟩
      intro b hb
      rcases List.mem_cons.mp hb with hb | hb
      · subst hb; omega
      · exact le_trans (hy b hb) (by omega)

theorem sortByCountDesc_sorted (l : List (Color × Nat)) :
    List.Sorted (fun a b : Color × Nat => b.2 ≤ a.2) (sortByCountDesc l) := by
  induction l with
  | nil => simp [sortByCountDesc]
  | cons x rest ih => exact insertByCountDesc_sorted x _ ih

theorem sortByCountDesc_head_max {l : List (Color × Nat)} {z : Color × Nat}
    {t : List (Color × Nat)} (h : sortByCountDesc l = z :: t) :
    ∀ y ∈ l, y.2 ≤ z.2 := by
  intro y hy
  have hmem : y ∈ z :: t := h ▸ mem_sortByCountDesc.mpr hy
  rcases List.mem_cons.mp hmem with hmem | hmem
  · subst hmem; exact le_refl _
  · have hsorted := sortByCountDesc_sorted l
    rw [h, List.sorted_cons] at hsorted
    exact hsorted.1 y hmem

/-! ## Count-list lemmas -/

theorem countsList_mem {c : Color} {s : List Color} (hc : c ∈ s) :
    (c, s.count c) ∈ countsList s :=
  List.mem_map.mpr ⟨c, mem_keysOf.mpr hc, rfl⟩

theorem countsList_shape {x : Color × Nat} {s : List Color}
    (hx : x ∈ countsList s) : x.2 = s.count x.1 ∧ x.1 ∈ s := by
  obtain ⟨c, hc, hcx⟩ := List.mem_map.mp hx
  cases hcx
  exact ⟨rfl, mem_keysOf.mp hc⟩

/-! ## C5 (amended): what `computeWantedColor` selects -/

theorem pickClaimed_cases (p : ProcessState) :
    ∀ (l : List (Color × Nat)) (fb : Color),
      pickClaimed p l fb = fb ∨ ∃ x ∈ l, pickClaimed p l fb = x.1 := by
  intro l
  induction l with
  | nil => intro fb; exact Or.inl rfl
  | cons x rest ih =>
    intro fb
    obtain ⟨c, k⟩ := x
    unfold pickClaimed
    split
    · exact Or.inr ⟨(c, k), List.mem_cons_self _ _, rfl⟩
    · rcases ih fb with h | ⟨y, hy, hyy⟩
      · exact Or.inl h
      · exact Or.inr ⟨y, List.mem_cons_of_mem _ hy, hyy⟩

/-- C5 (amended): on a non-empty stack, `computeWantedColor` always selects a
color occurring in the stack, and whenever some color holds a strict
majority of the stack the selected color has maximal count. -/
theorem computeWanted_majority (p : ProcessState) (h : p.stack ≠ []) :
    ∃ w, (computeWantedColor p).wanted = some w ∧ w ∈ p.stack ∧
      ∀ c, p.stack.length < 2 * p.stack.count c →
        ∀ d, p.stack.count d ≤ p.stack.count w := by
  obtain ⟨c0, rest, hs⟩ : ∃ a t, p.stack = a :: t := by
    rcases hst : p.stack with _ | ⟨a, t⟩
    · exact absurd hst h
    · exact ⟨a, t, rfl⟩
  unfold computeWantedColor
  split
  · rename_i heq
    rw [heq] at hs
    cases hs
  · rename_i a t heq
    rw [hs] at heq
    obtain ⟨hac, -⟩ : c0 = a ∧ rest = t := by
      injection heq with h1 h2
      exact ⟨h1, h2⟩
    subst hac
    dsimp only
    refine ⟨pickClaimed p (sortByCountDesc (countsList p.stack)) c0, rfl, ?_, ?_⟩
    · rcases pickClaimed_cases p (sortByCountDesc (countsList p.stack)) c0 with
        hp | ⟨x, hx, hp⟩
      · rw [hp, hs]
        exact List.mem_cons_self _ _
      · rw [hp]
        exact (countsList_shape (mem_sortByCountDesc.mp hx)).2
    · intro c hc d
      -- some color has a strict majority, so the head of the sorted counts
      -- passes the strong-claim threshold and is selected
      have hcmem : c ∈ p.stack := by
        by_contra hq
        rw [List.count_eq_zero_of_not_mem hq] at hc
        omega
      obtain ⟨z, t', hsort⟩ :
          ∃ z t', sortByCountDesc (countsList p.stack) = z :: t' := by
        rcases hq : sortByCountDesc (countsList p.stack) with _ | ⟨z, t'⟩
        · exfalso
          have : (c, p.stack.count c) ∈ sortByCountDesc (countsList p.stack) :=
            mem_sortByCountDesc.mpr (countsList_mem hcmem)
          rw [hq] at this
          exact absurd this (List.not_mem_nil _)
        · exact ⟨z, t', rfl⟩
      have hzmax : ∀ y ∈ countsList p.stack, y.2 ≤ z.2 :=
        sortByCountDesc_head_max hsort
      have hzshape := countsList_shape
        (mem_sortByCountDesc.mp (hsort ▸ List.mem_cons_self z t'))
      have hcz : p.stack.count c ≤ z.2 := hzmax _ (countsList_mem hcmem)
      have hclaim : shouldProcessClaimColor p z.1 z.2 = true := by
        unfold shouldProcessClaimColor
        rw [if_pos (by omega)]
      have hpick :
          pickClaimed p (sortByCountDesc (countsList p.stack)) c0 = z.1 := by
        rw [hsort]
        obtain ⟨z1, z2⟩ := z
        unfold pickClaimed
        rw [if_pos hclaim]
      rw [hpick, ← hzshape.1]
      by_cases hd : d ∈ p.stack
      · exact hzmax _ (countsList_mem hd)
      · rw [List.count_eq_zero_of_not_mem hd]
        omega

theorem computeWanted_majority_witness :
    ([Color.R, Color.R, Color.G] : List Color) ≠ [] ∧
      ∃ w, (computeWantedColor
          ⟨ProcessId.p2, [Color.R, Color.R, Color.G], none, none, false⟩).wanted
            = some w ∧
        w ∈ [Color.R, Color.R, Color.G] ∧
        ∀ c, [Color.R, Color.R, Color.G].length <
            2 * [Color.R, Color.R, Color.G].count c →
          ∀ d, [Color.R, Color.R, Color.G].count d ≤
            [Color.R, Color.R, Color.G].count w :=
  ⟨by decide,
    computeWanted_majority
      ⟨ProcessId.p2, [Color.R, Color.R, Color.G], none, none, false⟩ (by decide)⟩

/-! ## C6: partner selection -/

theorem bestScan_fold (p : ProcessState) :
    ∀ (cands : List ProcessState) (acc : Option ProcessState × Int),
      (List.foldl
          (fun acc candidate =>
            if acc.2 < calculatePartnerScore p candidate
            then (some candidate, calculatePartnerScore p candidate)
            else acc)
          acc cands = acc ∨
        ∃ b ∈ cands,
          (List.foldl
              (fun acc candidate =>
                if acc.2 < calculatePartnerScore p candidate
                then (some candidate, calculatePartnerScore p candidate)
                else acc)
              acc cands).1 = some b ∧
          (List.foldl
              (fun acc candidate =>
                if acc.2 < calculatePartnerScore p candidate
                then (some candidate, calculatePartnerScore p candidate)
                else acc)
              acc cands).2 = calculatePartnerScore p b) ∧
      acc.2 ≤ (List.foldl
          (fun acc candidate =>
            if acc.2 < calculatePartnerScore p candidate
            then (some candidate, calculatePartnerScore p candidate)
            else acc)
          acc cands).2 ∧
      ∀ c ∈ cands, calculatePartnerScore p c ≤ (List.foldl
          (fun acc candidate =>
            if acc.2 < calculatePartnerScore p candidate
            then (some candidate, calculatePartnerScore p candidate)
            else acc)
          acc cands).2 := by
  intro cands
  induction cands with
  | nil =>
    intro acc
    exact ⟨Or.inl rfl, le_refl _, by intro c hc; exact absurd hc (List.not_mem_nil c)⟩
  | cons d rest ih =>
    intro acc
    rw [List.foldl_cons]
    by_cases hstep : acc.2 < calculatePartnerScore p d
    · rw [if_pos hstep]
      obtain ⟨hcases, hacc, hall⟩ := ih (some d, calculatePartnerScore p d)
      refine ⟨?_, by omega, ?_⟩
      · rcases hcases with hc | ⟨b, hb, hb1, hb2⟩
        · exact Or.inr ⟨d, List.mem_cons_self d rest, by rw [hc], by rw [hc]⟩
        · exact Or.inr ⟨b, List.mem_cons_of_mem d hb, hb1, hb2⟩
      · intro c hc
        rcases List.mem_cons.mp hc with hc | hc
        · subst hc; omega
        · exact hall c hc
    · rw [if_neg hstep]
      obtain ⟨hcases, hacc, hall⟩ := ih acc
      refine ⟨?_, hacc, ?_⟩
      · rcases hcases with hc | ⟨b, hb, hb1, hb2⟩
        · exact Or.inl hc
        · exact Or.inr ⟨b, List.mem_cons_of_mem d hb, hb1, hb2⟩
      · intro c hc
        rcases List.mem_cons.mp hc with hc | hc
        · subst hc; omega
        · exact hall c hc

theorem bestScan_cases (p : ProcessState) (cands : List ProcessState) :
    (bestScan p cands = (none, -1) ∨
      ∃ b ∈ cands, (bestScan p cands).1 = some b ∧
        (bestScan p cands).2 = calculatePartnerScore p b) ∧
      ∀ c ∈ cands, calculatePartnerScore p c ≤ (bestScan p cands).2 := by
  obtain ⟨hcases, -, hall⟩ := bestScan_fold p cands (none, -1)
  exact ⟨hcases, hall⟩

/-- C6: the partner choice rule — the score of a candidate is
`3·(matching balls in the candidate) − 20·(same wanted color) + 2·(own
unwanted balls matching the candidate's wanted color)`; with no candidates
the partner is cleared; with a strictly positive top score a maximal-scoring
candidate becomes the partner; otherwise the candidate after the current
partner in the candidate ordering (cyclically; the first candidate when the
current partner is absent) becomes the partner. -/
theorem partner_selection_rule (p : ProcessState) (all : List ProcessState) :
    (candidatesOf p all = [] → (choosePartner p all).partner = none)
    ∧ (∀ w, p.wanted = some w → ∀ cand : ProcessState,
        calculatePartnerScore p cand =
          3 * (cand.stack.count w : Int)
            + (if cand.wanted = some w then -20 else 0)
            + 2 * ((p.stack.filter
                (fun c => cand.wanted = some c && c ≠ w)).length : Int))
    ∧ ((∃ cand ∈ candidatesOf p all, 0 < calculatePartnerScore p cand) →
        ∃ b ∈ candidatesOf p all, (choosePartner p all).partner = some b.id ∧
          ∀ cand ∈ candidatesOf p all,
            calculatePartnerScore p cand ≤ calculatePartnerScore p b)
    ∧ (candidatesOf p all ≠ [] →
        (∀ cand ∈ candidatesOf p all, calculatePartnerScore p cand ≤ 0) →
        (choosePartner p all).partner =
          some ((candidatesOf p all).getD
            (roundRobinIdx p (candidatesOf p all)) p).id) := by
  refine ⟨?_, ?_, ?_, ?_⟩
  · intro h
    unfold choosePartner
    rw [if_pos (by rw [List.isEmpty_iff]; exact h)]
  · intro w hw cand
    unfold calculatePartnerScore
    rw [hw]
    rcases hcw : cand.wanted with _ | cw
    · simp
    · dsimp only
      have hfil : p.stack.filter (fun c => some cw = some c && c ≠ w)
          = p.stack.filter (fun c => c = cw && c ≠ w) := by
        apply List.filter_congr
        intro a _
        by_cases hacw : a = cw
        · subst hacw; simp
        · simp only [Option.some.injEq]
          have hdec : (decide (cw = a) : Bool) = decide (a = cw) :=
            decide_eq_decide.mpr eq_comm
          rw [hdec]
      rw [hfil]
  · rintro ⟨cw, hcwmem, hcwpos⟩
    have hne : candidatesOf p all ≠ [] := by
      intro h0
      rw [h0] at hcwmem
      exact absurd hcwmem (List.not_mem_nil cw)
    obtain ⟨hcases, hall⟩ := bestScan_cases p (candidatesOf p all)
    rcases hcases with hc | ⟨b, hb, hb1, hb2⟩
    · exfalso
      have := hall cw hcwmem
      rw [hc] at this
      omega
    · refine ⟨b, hb, ?_, ?_⟩
      · unfold choosePartner
        rw [if_neg (by simp [List.isEmpty_iff, hne])]
        dsimp only
        have hbpos : 0 < (bestScan p (candidatesOf p all)).2 :=
          lt_of_lt_of_le hcwpos (hall cw hcwmem)
        rw [hb1]
        dsimp only
        rw [if_neg (by rw [hb2] at hbpos; omega)]
      · intro cand hcand
        rw [← hb2]
        exact hall cand hcand
  · intro hne hall
    obtain ⟨hcases, -⟩ := bestScan_cases p (candidatesOf p all)
    unfold choosePartner
    rw [if_neg (by simp [List.isEmpty_iff, hne])]
    dsimp only
    rcases hcases with hc | ⟨b, hb, hb1, hb2⟩
    · rw [hc]
    · rw [hb1]
      dsimp only
      rw [if_pos (by rw [hb2]; exact hall b hb)]

theorem partner_selection_rule_witness :
    (∃ cand ∈ candidatesOf
        ⟨ProcessId.p1, [Color.R], some Color.R, none, false⟩
        [⟨ProcessId.p1, [Color.R], some Color.R, none, false⟩,
         ⟨ProcessId.p2, [Color.R, Color.R], some Color.G, none, false⟩],
      0 < calculatePartnerScore
        ⟨ProcessId.p1, [Color.R], some Color.R, none, false⟩ cand) ∧
      ∃ b ∈ candidatesOf
          ⟨ProcessId.p1, [Color.R], some Color.R, none, false⟩
          [⟨ProcessId.p1, [Color.R], some Color.R, none, false⟩,
           ⟨ProcessId.p2, [Color.R, Color.R], some Color.G, none, false⟩],
        (choosePartner ⟨ProcessId.p1, [Color.R], some Color.R, none, false⟩
            [⟨ProcessId.p1, [Color.R], some Color.R, none, false⟩,
             ⟨ProcessId.p2, [Color.R, Color.R], some Color.G, none, false⟩]).partner
          = some b.id ∧
        ∀ cand ∈ candidatesOf
            ⟨ProcessId.p1, [Color.R], some Color.R, none, false⟩
            [⟨ProcessId.p1, [Color.R], some Color.R, none, false⟩,
             ⟨ProcessId.p2, [Color.R, Color.R], some Color.G, none, false⟩],
          calculatePartnerScore
              ⟨ProcessId.p1, [Color.R], some Color.R, none, false⟩ cand ≤
            calculatePartnerScore
              ⟨ProcessId.p1, [Color.R], some Color.R, none, false⟩ b :=
  ⟨⟨⟨ProcessId.p2, [Color.R, Color.R], some Color.G, none, false⟩,
      by decide, by decide⟩,
    (partner_selection_rule
        ⟨ProcessId.p1, [Color.R], some Color.R, none, false⟩
        [⟨ProcessId.p1, [Color.R], some Color.R, none, false⟩,
         ⟨ProcessId.p2, [Color.R, Color.R], some Color.G, none, false⟩]).2.2.1
      ⟨⟨ProcessId.p2, [Color.R, Color.R], some Color.G, none, false⟩,
        by decide, by decide⟩⟩

/-! ## C9: the done flag is monotonic under every engine step -/

theorem doneMono_refl (ps : List ProcessState) : DoneMono ps ps :=
  List.forall₂_same.mpr (fun _ _ => ⟨rfl, id⟩)

theorem doneMono_trans {ps1 ps2 ps3 : List ProcessState}
    (h12 : DoneMono ps1 ps2) (h23 : DoneMono ps2 ps3) : DoneMono ps1 ps3 := by
  induction h12 generalizing ps3 with
  | nil => cases h23; exact List.Forall₂.nil
  | cons h1 h2 ih =>
    cases h23 with
    | cons h3 h4 =>
      exact List.Forall₂.cons
        ⟨h3.1.trans h1.1, fun hd => h3.2 (h1.2 hd)⟩ (ih h4)

theorem doneMono_map (ps : List ProcessState) (f : ProcessState → ProcessState)
    (hid : ∀ q, (f q).id = q.id)
    (hdone : ∀ q, q.isDone = true → (f q).isDone = true) :
    DoneMono ps (ps.map f) := by
  induction ps with
  | nil => exact List.Forall₂.nil
  | cons q rest ih => exact List.Forall₂.cons ⟨hid q, hdone q⟩ ih

theorem doneMono_updateProc (ps : List ProcessState) (pid : ProcessId)
    (f : ProcessState → ProcessState) (hid : ∀ q, (f q).id = q.id)
    (hdone : ∀ q, q.isDone = true → (f q).isDone = true) :
    DoneMono ps (updateProc ps pid f) := by
  apply doneMono_map
  · intro q
    dsimp only
    split
    · exact hid q
    · rfl
  · intro q hq
    dsimp only
    split
    · exact hdone q hq
    · exact hq

theorem computeWantedColor_id (q : ProcessState) :
    (computeWantedColor q).id = q.id := by
  unfold computeWantedColor; split <;> rfl

theorem computeWantedColor_isDone (q : ProcessState) :
    (computeWantedColor q).isDone = q.isDone := by
  unfold computeWantedColor; split <;> rfl

theorem computeWantedColor_stack (q : ProcessState) :
    (computeWantedColor q).stack = q.stack := by
  unfold computeWantedColor; split <;> rfl

theorem choosePartner_eq (q : ProcessState) (all : List ProcessState) :
    ∃ pt, choosePartner q all = { q with partner := pt } := by
  unfold choosePartner
  dsimp only
  split
  · exact ⟨none, rfl⟩
  · rcases hb : (bestScan q (candidatesOf q all)).1 with _ | b
    · exact ⟨_, rfl⟩
    · dsimp only
      split
      · exact ⟨_, rfl⟩
      · exact ⟨_, rfl⟩

theorem choosePartner_id (q : ProcessState) (all : List ProcessState) :
    (choosePartner q all).id = q.id := by
  obtain ⟨pt, hpt⟩ := choosePartner_eq q all
  rw [hpt]

theorem choosePartner_isDone (q : ProcessState) (all : List ProcessState) :
    (choosePartner q all).isDone = q.isDone := by
  obtain ⟨pt, hpt⟩ := choosePartner_eq q all
  rw [hpt]

theorem choosePartner_stack (q : ProcessState) (all : List ProcessState) :
    (choosePartner q all).stack = q.stack := by
  obtain ⟨pt, hpt⟩ := choosePartner_eq q all
  rw [hpt]

theorem forceAlternativeColor_eq (q : ProcessState) (c : Color) :
    ∃ w', forceAlternativeColor q c = { q with wanted := w' } := by
  unfold forceAlternativeColor
  dsimp only
  split
  · exact ⟨q.wanted, rfl⟩
  · exact ⟨_, rfl⟩

theorem resolveOne_fields (ps : List ProcessState) (i : Nat) (p : ProcessState) :
    (resolveOne ps i p).id = p.id ∧ (resolveOne ps i p).isDone = p.isDone ∧
      (resolveOne ps i p).stack = p.stack := by
  unfold resolveOne
  split
  · exact ⟨rfl, rfl, rfl⟩
  · rename_i c heq
    dsimp only
    split
    · exact ⟨rfl, rfl, rfl⟩
    · split
      · exact ⟨rfl, rfl, rfl⟩
      · split
        · exact ⟨rfl, rfl, rfl⟩
        · split
          · exact ⟨rfl, rfl, rfl⟩
          · obtain ⟨w', hw⟩ := forceAlternativeColor_eq p c
            rw [hw]
            exact ⟨rfl, rfl, rfl⟩

theorem doneMono_enumFrom_resolve (ps : List ProcessState) :
    ∀ (qs : List ProcessState) (n : Nat),
      DoneMono qs ((qs.enumFrom n).map (fun ip => resolveOne ps ip.1 ip.2)) := by
  intro qs
  induction qs with
  | nil => intro n; exact List.Forall₂.nil
  | cons q rest ih =>
    intro n
    refine List.Forall₂.cons ?_ (ih (n + 1))
    refine ⟨(resolveOne_fields ps n q).1, fun hd => ?_⟩
    rw [(resolveOne_fields ps n q).2.1]
    exact hd

theorem doneMono_resolve (ps : List ProcessState) :
    DoneMono ps (resolveColorConflicts ps) :=
  doneMono_enumFrom_resolve ps ps 0

theorem doneMono_markDone (e : Engine) (pid : ProcessId) :
    DoneMono e.processes (markDoneAndBroadcast e pid).processes := by
  unfold markDoneAndBroadcast
  rcases h : getProc e.processes pid with _ | p
  · exact doneMono_refl _
  · dsimp only
    split
    · exact doneMono_refl _
    · exact doneMono_updateProc _ _ _ (fun q => rfl) (fun q _ => rfl)

theorem doneMono_checkMono (e : Engine) (pid : ProcessId) :
    DoneMono e.processes (checkMonochrome e pid).processes := by
  unfold checkMonochrome
  rcases h : getProc e.processes pid with _ | p
  · exact doneMono_refl _
  · dsimp only
    split_ifs <;>
      first
        | exact doneMono_markDone e pid
        | exact doneMono_refl _

theorem doneMono_reissue (e : Engine) (pid : ProcessId) :
    DoneMono e.processes (reissueRequest e pid).processes := by
  unfold reissueRequest
  rcases h : getProc e.processes pid with _ | p
  · exact doneMono_refl _
  · dsimp only
    split
    · exact doneMono_refl _
    · have hm : DoneMono e.processes
          (updateProc (updateProc e.processes pid computeWantedColor) pid
            (fun q => choosePartner q
              (updateProc e.processes pid computeWantedColor))) :=
        doneMono_trans
          (doneMono_updateProc _ _ _ computeWantedColor_id
            (fun q hq => by rw [computeWantedColor_isDone]; exact hq))
          (doneMono_updateProc _ _ _ (fun q => choosePartner_id q _)
            (fun q hq => by rw [choosePartner_isDone]; exact hq))
      split
      · exact hm
      · exact hm

theorem doneMono_handleDone (e : Engine) (sid : ProcessId) :
    DoneMono e.processes (handleDone e sid).processes :=
  doneMono_updateProc _ _ _ (fun q => rfl) (fun q _ => rfl)

theorem doneMono_handleSend (e : Engine) (rid : ProcessId) (mc : Option Color) :
    DoneMono e.processes (handleSend e rid mc).processes := by
  unfold handleSend
  rcases mc with _ | c
  · exact doneMono_refl _
  · dsimp only
    refine doneMono_trans (doneMono_trans
      (doneMono_updateProc e.processes rid
        (fun q => { q with stack := q.stack ++ [c] })
        (fun q => rfl) (fun q hq => hq))
      (doneMono_checkMono
        { e with
          processes := updateProc e.processes rid
            (fun q => { q with stack := q.stack ++ [c] })
          totalExchanges := e.totalExchanges + 1 } rid))
      (doneMono_reissue _ rid)

theorem doneMono_handleRequest (e : Engine) (rid sid : ProcessId)
    (mc : Option Color) :
    DoneMono e.processes (handleRequest e rid sid mc).processes := by
  unfold handleRequest
  rcases mc with _ | rc
  · exact doneMono_refl _
  · dsimp only
    refine doneMono_trans ?_ (doneMono_reissue _ rid)
    rcases h : getProc e.processes rid with _ | r
    · exact doneMono_refl _
    · dsimp only
      split
      · exact doneMono_trans
          (doneMono_updateProc e.processes rid
            (fun q => { q with stack := removeFirstMatching q.stack rc q.wanted })
            (fun q => rfl) (fun q hq => hq))
          (doneMono_checkMono
            { e with
              processes := updateProc e.processes rid
                (fun q => { q with stack := removeFirstMatching q.stack rc q.wanted })
              messageQueue := e.messageQueue ++
                [⟨MsgType.SEND, rid, sid, some rc⟩] } rid)
      · exact doneMono_refl _

theorem doneMono_triggerFor (e : Engine) (pid : ProcessId) :
    DoneMono e.processes (triggerFor e pid).processes := by
  unfold triggerFor
  rcases h : getProc e.processes pid with _ | p
  · exact doneMono_refl _
  · dsimp only
    split
    · exact doneMono_refl _
    · split
      · exact doneMono_refl _
      · exact doneMono_reissue e pid

theorem doneMono_foldTrigger :
    ∀ (l : List ProcessId) (e : Engine),
      DoneMono e.processes ((l.foldl triggerFor e).processes) := by
  intro l
  induction l with
  | nil => intro e; exact doneMono_refl _
  | cons pid rest ih =>
    intro e
    rw [List.foldl_cons]
    exact doneMono_trans (doneMono_triggerFor e pid) (ih (triggerFor e pid))

theorem doneMono_trigger (e : Engine) :
    DoneMono e.processes (triggerNewRequests e).processes :=
  doneMono_foldTrigger _ e

theorem doneMono_processNext (e : Engine) :
    DoneMono e.processes (processNextMessage e).processes := by
  unfold processNextMessage
  rcases hq : e.messageQueue with _ | ⟨msg, rest⟩
  · exact doneMono_trigger e
  · dsimp only
    rcases hto : getProc e.processes msg.toId with _ | pto <;>
      rcases hfrom : getProc e.processes msg.fromId with _ | pfrom
    · exact doneMono_refl _
    · exact doneMono_refl _
    · exact doneMono_refl _
    · rcases msg.type with _ | _ | _ <;> dsimp only
      · exact doneMono_handleRequest { e with messageQueue := rest }
          msg.toId msg.fromId msg.color
      · exact doneMono_handleSend { e with messageQueue := rest }
          msg.toId msg.color
      · exact doneMono_handleDone { e with messageQueue := rest } msg.fromId

theorem getProc_doneMono {ps ps' : List ProcessState} {pid : ProcessId}
    {p : ProcessState} (h : DoneMono ps ps') (hp : getProc ps pid = some p)
    (hd : p.isDone = true) :
    ∃ p', getProc ps' pid = some p' ∧ p'.isDone = true := by
  induction h with
  | nil => simp [getProc] at hp
  | cons h1 h2 ih =>
    rename_i a b l1 l2
    by_cases hid : a.id = pid
    · have hpa : p = a := by
        unfold getProc at hp
        rw [List.find?_cons_of_pos _ (by simp [hid])] at hp
        exact (Option.some.inj hp).symm
      refine ⟨b, ?_, h1.2 (hpa ▸ hd)⟩
      unfold getProc
      rw [List.find?_cons_of_pos _ (by simp [h1.1, hid])]
    · have hp' : getProc l1 pid = some p := by
        unfold getProc at hp ⊢
        rwa [List.find?_cons_of_neg _ (by simp [hid])] at hp
      obtain ⟨p', hp'', hd'⟩ := ih hp'
      refine ⟨p', ?_, hd'⟩
      unfold getProc at hp'' ⊢
      rw [List.find?_cons_of_neg _ (by simp [h1.1, hid])]
      exact hp''

/-- C9: no engine step — message dispatch (REQUEST, SEND, DONE), completion
check, protocol re-entry, conflict resolution, forced completion, or flag
update — ever resets a process's done flag from true to false, and only the
re-initialization of `reset` produces processes with the flag cleared. -/
theorem done_flag_monotonic :
    (∀ e e', EngineStep e e' → ∀ pid p, getProc e.processes pid = some p →
      p.isDone = true →
      ∃ p', getProc e'.processes pid = some p' ∧ p'.isDone = true) ∧
    (∀ dist : List (ProcessId × List Color),
      ∀ p ∈ (initEngine dist).processes, p.isDone = false) := by
  constructor
  · intro e e' hstep pid p hp hd
    have hm : DoneMono e.processes e'.processes := by
      cases hstep with
      | dispatch => exact doneMono_processNext e
      | completionCheck pid' => exact doneMono_checkMono e pid'
      | protocolReentry pid' => exact doneMono_reissue e pid'
      | conflictResolution => exact doneMono_resolve e.processes
      | forcedCompletion =>
        exact doneMono_map _ _ (fun q => rfl) (fun q _ => rfl)
      | cacheFeasibility b => exact doneMono_refl _
      | toggleRunning b => exact doneMono_refl _
    exact getProc_doneMono hm hp hd
  · intro dist p hp
    obtain ⟨pd, -, hpd⟩ := List.mem_map.mp hp
    rw [← hpd]

theorem done_flag_monotonic_witness :
    ∃ p', getProc (checkMonochrome doneEngine ProcessId.p1).processes
        ProcessId.p1 = some p' ∧ p'.isDone = true :=
  done_flag_monotonic.1 doneEngine (checkMonochrome doneEngine ProcessId.p1)
    (EngineStep.completionCheck doneEngine ProcessId.p1) ProcessId.p1
    ⟨ProcessId.p1, [Color.R, Color.G], some Color.R, none, true⟩
    (by decide) (by decide)

/-! ## C1: conservation — counting lemmas -/

theorem stackTokens_nil (c : Color) : stackTokens [] c = 0 := rfl

theorem stackTokens_cons (q : ProcessState) (rest : List ProcessState) (c : Color) :
    stackTokens (q :: rest) c = q.stack.count c + stackTokens rest c := by
  unfold stackTokens allTokens
  rw [List.flatMap_cons, List.count_append]

theorem stackTokens_map_stack_eq (g : ProcessState → ProcessState)
    (h : ∀ q, (g q).stack = q.stack) (ps : List ProcessState) (c : Color) :
    stackTokens (ps.map g) c = stackTokens ps c := by
  induction ps with
  | nil => rfl
  | cons q rest ih =>
    rw [List.map_cons, stackTokens_cons, stackTokens_cons, h q, ih]

theorem stackTokens_updateProc_stack_eq (f : ProcessState → ProcessState)
    (h : ∀ q, (f q).stack = q.stack) (ps : List ProcessState) (pid : ProcessId)
    (c : Color) : stackTokens (updateProc ps pid f) c = stackTokens ps c := by
  apply stackTokens_map_stack_eq
  intro q
  dsimp only
  split
  · exact h q
  · rfl

theorem stackTokens_resolve (ps : List ProcessState) (c : Color) :
    stackTokens (resolveColorConflicts ps) c = stackTokens ps c := by
  unfold resolveColorConflicts
  have haux : ∀ (qs : List ProcessState) (n : Nat),
      stackTokens ((qs.enumFrom n).map (fun ip => resolveOne ps ip.1 ip.2)) c
        = stackTokens qs c := by
    intro qs
    induction qs with
    | nil => intro n; rfl
    | cons q rest ih =>
      intro n
      rw [List.enumFrom_cons, List.map_cons, stackTokens_cons, stackTokens_cons,
        (resolveOne_fields ps n q).2.2, ih (n + 1)]
  exact haux ps 0

theorem updateProc_of_forall_ne (ps : List ProcessState) (pid : ProcessId)
    (f : ProcessState → ProcessState) (h : ∀ r ∈ ps, r.id ≠ pid) :
    updateProc ps pid f = ps := by
  induction ps with
  | nil => rfl
  | cons q rest ih =>
    unfold updateProc
    rw [List.map_cons]
    rw [if_neg (h q (List.mem_cons_self q rest))]
    have : updateProc rest pid f = rest :=
      ih (fun r hr => h r (List.mem_cons_of_mem q hr))
    unfold updateProc at this
    rw [this]

theorem idsOf_cons (q : ProcessState) (rest : List ProcessState) :
    idsOf (q :: rest) = q.id :: idsOf rest := rfl

theorem stackTokens_updateProc_count {ps : List ProcessState} {pid : ProcessId}
    {p : ProcessState} (f : ProcessState → ProcessState)
    (hnd : (idsOf ps).Nodup) (hp : getProc ps pid = some p) (c : Color) :
    stackTokens (updateProc ps pid f) c + p.stack.count c
      = stackTokens ps c + (f p).stack.count c := by
  induction ps with
  | nil => simp [getProc] at hp
  | cons q rest ih =>
    rw [idsOf_cons, List.nodup_cons] at hnd
    by_cases hid : q.id = pid
    · have hpq : p = q := by
        unfold getProc at hp
        rw [List.find?_cons_of_pos _ (by simp [hid])] at hp
        exact (Option.some.inj hp).symm
      subst hpq
      have hrest : updateProc rest pid f = rest := by
        apply updateProc_of_forall_ne
        intro r hr hrid
        exact hnd.1 (by rw [← hid] at hrid; rw [← hrid]; exact List.mem_map_of_mem _ hr)
      unfold updateProc
      rw [List.map_cons, if_pos hid]
      have : List.map (fun r => if r.id = pid then f r else r) rest = rest := hrest
      rw [this, stackTokens_cons, stackTokens_cons]
      omega
    · have hp' : getProc rest pid = some p := by
        unfold getProc at hp ⊢
        rwa [List.find?_cons_of_neg _ (by simp [hid])] at hp
      have ihx := ih hnd.2 hp'
      unfold updateProc
      rw [List.map_cons, if_neg hid]
      have hru : List.map (fun r => if r.id = pid then f r else r) rest
          = updateProc rest pid f := rfl
      rw [hru, stackTokens_cons, stackTokens_cons]
      omega

theorem inFlight_append (q1 q2 : List Message) (c : Color) :
    inFlight (q1 ++ q2) c = inFlight q1 c + inFlight q2 c := by
  unfold inFlight
  rw [List.filter_append, List.length_append]

theorem inFlight_of_nonSend (l : List Message)
    (h : ∀ m ∈ l, m.type ≠ MsgType.SEND) (c : Color) : inFlight l c = 0 := by
  unfold inFlight
  rw [List.length_eq_zero, List.filter_eq_nil_iff]
  intro m hm
  simp [h m hm]

theorem inFlight_requestMessageOf (p : ProcessState) (c : Color) :
    inFlight (requestMessageOf p) c = 0 := by
  apply inFlight_of_nonSend
  intro m hm
  unfold requestMessageOf at hm
  rcases hp : p.partner with _ | pt <;> rcases hw : p.wanted with _ | w <;>
      rw [hp, hw] at hm
  · simp at hm
  · simp at hm
  · simp at hm
  · rw [List.mem_singleton] at hm
    rw [hm]
    simp

theorem inFlight_doneMessagesFor (p : ProcessState) (ps : List ProcessState)
    (c : Color) : inFlight (doneMessagesFor p ps) c = 0 := by
  apply inFlight_of_nonSend
  intro m hm
  unfold doneMessagesFor at hm
  obtain ⟨o, -, ho⟩ := List.mem_map.mp hm
  rw [← ho]
  simp

theorem inFlight_single_send (a b : ProcessId) (c' c : Color) :
    inFlight [⟨MsgType.SEND, a, b, some c'⟩] c = if c' = c then 1 else 0 := by
  by_cases h : c' = c <;> simp [inFlight, h]

theorem removeFirstMatching_count_ne (s : List Color) (rc : Color)
    (w : Option Color) (c : Color) (hne : c ≠ rc) :
    (removeFirstMatching s rc w).count c = s.count c := by
  induction s with
  | nil => rfl
  | cons x rest ih =>
    unfold removeFirstMatching
    split
    · rename_i hcond
      have hx : x = rc := by
        rcases Bool.and_eq_true .. |>.mp hcond with ⟨h1, -⟩
        exact of_decide_eq_true h1
      rw [List.count_cons, hx]
      have hnc : ¬(rc = c) := fun hh => hne hh.symm
      simp [hnc]
    · rw [List.count_cons, List.count_cons, ih]

theorem removeFirstMatching_count_eq (s : List Color) (rc : Color)
    (w : Option Color)
    (h : s.any (fun x => x = rc && w ≠ some x) = true) :
    (removeFirstMatching s rc w).count rc + 1 = s.count rc := by
  induction s with
  | nil => simp at h
  | cons x rest ih =>
    unfold removeFirstMatching
    split
    · rename_i hcond
      have hx : x = rc := by
        rcases Bool.and_eq_true .. |>.mp hcond with ⟨h1, -⟩
        exact of_decide_eq_true h1
      rw [List.count_cons, hx]
      simp
    · rename_i hcond
      have hrest : rest.any (fun x => x = rc && w ≠ some x) = true := by
        rcases List.any_eq_true.mp h with ⟨y, hy, hyy⟩
        rcases List.mem_cons.mp hy with hy | hy
        · exfalso
          rw [← hy] at hcond
          exact hcond hyy
        · exact List.any_eq_true.mpr ⟨y, hy, hyy⟩
      rw [List.count_cons, List.count_cons, ← ih hrest]
      omega

/-! ## C1: conservation — well-formedness is preserved by every step -/

theorem doneMono_idsOf {ps ps' : List ProcessState} (h : DoneMono ps ps') :
    idsOf ps' = idsOf ps := by
  induction h with
  | nil => rfl
  | cons h1 h2 ih => rw [idsOf_cons, idsOf_cons, h1.1, ih]

theorem hasProc_iff_mem (ps : List ProcessState) (pid : ProcessId) :
    hasProc ps pid = true ↔ pid ∈ idsOf ps := by
  unfold hasProc idsOf
  rw [List.any_eq_true]
  constructor
  · rintro ⟨p, hp, hpe⟩
    exact List.mem_map.mpr ⟨p, hp, of_decide_eq_true hpe⟩
  · intro h
    obtain ⟨p, hp, he⟩ := List.mem_map.mp h
    exact ⟨p, hp, by simp [he]⟩

theorem hasProc_congr {ps ps' : List ProcessState}
    (hid : idsOf ps' = idsOf ps) (pid : ProcessId) :
    hasProc ps' pid = hasProc ps pid := by
  by_cases hmem : pid ∈ idsOf ps
  · rw [(hasProc_iff_mem ps pid).mpr hmem,
      (hasProc_iff_mem ps' pid).mpr (by rw [hid]; exact hmem)]
  · have h1 : ¬hasProc ps pid = true := fun hh => hmem ((hasProc_iff_mem ps pid).mp hh)
    have h2 : ¬hasProc ps' pid = true := fun hh =>
      hmem (by rw [← hid]; exact (hasProc_iff_mem ps' pid).mp hh)
    rw [Bool.not_eq_true] at h1 h2
    rw [h1, h2]

theorem getProc_isSome_of_hasProc {ps : List ProcessState} {pid : ProcessId}
    (h : hasProc ps pid = true) : (getProc ps pid).isSome = true := by
  unfold getProc
  rw [List.find?_isSome]
  obtain ⟨p, hp, he⟩ := List.any_eq_true.mp h
  exact ⟨p, hp, he⟩

theorem hasProc_of_getProc {ps : List ProcessState} {pid : ProcessId}
    {p : ProcessState} (h : getProc ps pid = some p) : hasProc ps pid = true := by
  unfold getProc at h
  have hmem := List.mem_of_find?_eq_some h
  have hpe := List.find?_some h
  exact List.any_eq_true.mpr ⟨p, hmem, hpe⟩

theorem wf_replace {e e' : Engine} (h : QueueWF e)
    (hid : idsOf e'.processes = idsOf e.processes)
    (hq : ∀ m ∈ e'.messageQueue, m.type = MsgType.SEND →
      m ∈ e.messageQueue ∨
        (hasProc e.processes m.toId = true ∧ hasProc e.processes m.fromId = true)) :
    QueueWF e' := by
  constructor
  · rw [hid]
    exact h.1
  · intro m hm hsend
    rcases hq m hm hsend with hmem | ⟨h1, h2⟩
    · obtain ⟨h1, h2⟩ := h.2 m hmem hsend
      rw [hasProc_congr hid m.toId, hasProc_congr hid m.fromId]
      exact ⟨h1, h2⟩
    · rw [hasProc_congr hid m.toId, hasProc_congr hid m.fromId]
      exact ⟨h1, h2⟩

theorem wf_markDone {e : Engine} (h : QueueWF e) (pid : ProcessId) :
    QueueWF (markDoneAndBroadcast e pid) := by
  refine wf_replace h (doneMono_idsOf (doneMono_markDone e pid)) ?_
  intro m hm hsend
  unfold markDoneAndBroadcast at hm
  rcases hg : getProc e.processes pid with _ | p
  · rw [hg] at hm
    exact Or.inl hm
  · rw [hg] at hm
    dsimp only at hm
    split at hm
    · exact Or.inl hm
    · rcases List.mem_append.mp hm with hm | hm
      · exact Or.inl hm
      · exfalso
        unfold doneMessagesFor at hm
        obtain ⟨o, -, ho⟩ := List.mem_map.mp hm
        rw [← ho] at hsend
        simp at hsend

theorem wf_checkMono {e : Engine} (h : QueueWF e) (pid : ProcessId) :
    QueueWF (checkMonochrome e pid) := by
  unfold checkMonochrome
  rcases hg : getProc e.processes pid with _ | p
  · exact h
  · dsimp only
    split_ifs <;> first | exact wf_markDone h pid | exact h

theorem wf_reissue {e : Engine} (h : QueueWF e) (pid : ProcessId) :
    QueueWF (reissueRequest e pid) := by
  have hmono := doneMono_reissue e pid
  refine wf_replace h (doneMono_idsOf hmono) ?_
  intro m hm hsend
  unfold reissueRequest at hm
  rcases hg : getProc e.processes pid with _ | p
  · rw [hg] at hm
    exact Or.inl hm
  · rw [hg] at hm
    dsimp only at hm
    split at hm
    · exact Or.inl hm
    · rcases hg2 : getProc
          (updateProc (updateProc e.processes pid computeWantedColor) pid
            (fun q => choosePartner q (updateProc e.processes pid computeWantedColor)))
          pid with _ | p'
      · rw [hg2] at hm
        exact Or.inl hm
      · rw [hg2] at hm
        dsimp only at hm
        rcases List.mem_append.mp hm with hm | hm
        · exact Or.inl hm
        · exfalso
          unfold requestMessageOf at hm
          rcases hpt : p'.partner with _ | pt <;> rcases hw : p'.wanted with _ | w <;>
              rw [hpt, hw] at hm
          · simp at hm
          · simp at hm
          · simp at hm
          · rw [List.mem_singleton] at hm
            rw [hm] at hsend
            simp at hsend

theorem wf_triggerFor {e : Engine} (h : QueueWF e) (pid : ProcessId) :
    QueueWF (triggerFor e pid) := by
  unfold triggerFor
  rcases hg : getProc e.processes pid with _ | p
  · exact h
  · dsimp only
    split
    · exact h
    · split
      · exact h
      · exact wf_reissue h pid

theorem wf_foldTrigger :
    ∀ (l : List ProcessId) {e : Engine}, QueueWF e →
      QueueWF (l.foldl triggerFor e) := by
  intro l
  induction l with
  | nil => intro e h; exact h
  | cons pid rest ih =>
    intro e h
    rw [List.foldl_cons]
    exact ih (wf_triggerFor h pid)

theorem wf_handleDone {e : Engine} (h : QueueWF e) (sid : ProcessId) :
    QueueWF (handleDone e sid) := by
  refine wf_replace h (doneMono_idsOf (doneMono_handleDone e sid)) ?_
  intro m hm hsend
  exact Or.inl hm

theorem wf_handleSend {e : Engine} (h : QueueWF e) (rid : ProcessId)
    (mc : Option Color) : QueueWF (handleSend e rid mc) := by
  unfold handleSend
  rcases mc with _ | c
  · exact h
  · dsimp only
    apply wf_reissue
    apply wf_checkMono
    refine wf_replace h
      (doneMono_idsOf (doneMono_updateProc _ _ _ (fun q => rfl) (fun q hq => hq)))
      ?_
    intro m hm hsend
    exact Or.inl hm

theorem wf_handleRequest {e : Engine} (h : QueueWF e) {rid sid : ProcessId}
    (hrid : hasProc e.processes rid = true)
    (hsid : hasProc e.processes sid = true) (mc : Option Color) :
    QueueWF (handleRequest e rid sid mc) := by
  unfold handleRequest
  rcases mc with _ | rc
  · exact h
  · dsimp only
    apply wf_reissue
    rcases hg : getProc e.processes rid with _ | r
  
    · exact h
    · dsimp only
      split
      · apply wf_checkMono
        refine wf_replace h
          (doneMono_idsOf (doneMono_updateProc _ _ _ (fun q => rfl) (fun q hq => hq)))
          ?_
        intro m hm hsend
        rcases List.mem_append.mp hm with hm | hm
        · exact Or.inl hm
        · rw [List.mem_singleton] at hm
          rw [hm]
          exact Or.inr ⟨hsid, hrid⟩
      · exact h

theorem wf_processNext {e : Engine} (h : QueueWF e) :
    QueueWF (processNextMessage e) := by
  unfold processNextMessage
  rcases hq : e.messageQueue with _ | ⟨msg, rest⟩
  · exact wf_foldTrigger _ h
  · dsimp only
    have hrest : QueueWF { e with messageQueue := rest } := by
      refine wf_replace h rfl ?_
      intro m hm hsend
      exact Or.inl (by rw [hq]; exact List.mem_cons_of_mem msg hm)
    rcases hto : getProc e.processes msg.toId with _ | pto <;>
      rcases hfrom : getProc e.processes msg.fromId with _ | pfrom
    · exact hrest
    · exact hrest
    · exact hrest
    · rcases msg.type with _ | _ | _ <;> dsimp only
      · exact wf_handleRequest hrest (hasProc_of_getProc hto)
          (hasProc_of_getProc hfrom) msg.color
      · exact wf_handleSend hrest msg.toId msg.color
      · exact wf_handleDone hrest msg.fromId

theorem wf_step {e e' : Engine} (hstep : EngineStep e e') (h : QueueWF e) :
    QueueWF e' := by
  cases hstep with
  | dispatch => exact wf_processNext h
  | completionCheck pid => exact wf_checkMono h pid
  | protocolReentry pid => exact wf_reissue h pid
  | conflictResolution =>
    exact wf_replace h (doneMono_idsOf (doneMono_resolve e.processes))
      (fun m hm _ => Or.inl hm)
  | forcedCompletion =>
    exact wf_replace h
      (doneMono_idsOf (doneMono_map _ _ (fun q => rfl) (fun q _ => rfl)))
      (fun m hm _ => Or.inl hm)
  | cacheFeasibility b => exact wf_replace h rfl (fun m hm _ => Or.inl hm)
  | toggleRunning b => exact wf_replace h rfl (fun m hm _ => Or.inl hm)

/-! ## C1: conservation — the per-color quantity is preserved by every step -/

theorem tokens_markDone (e : Engine) (pid : ProcessId) (c : Color) :
    tokenCount (markDoneAndBroadcast e pid) c = tokenCount e c := by
  unfold markDoneAndBroadcast
  rcases hg : getProc e.processes pid with _ | p
  · rfl
  · dsimp only
    split
    · rfl
    · unfold tokenCount
      dsimp only
      rw [stackTokens_updateProc_stack_eq (fun q => { q with isDone := true })
        (fun q => rfl), inFlight_append, inFlight_doneMessagesFor]
      omega

theorem tokens_checkMono (e : Engine) (pid : ProcessId) (c : Color) :
    tokenCount (checkMonochrome e pid) c = tokenCount e c := by
  unfold checkMonochrome
  rcases hg : getProc e.processes pid with _ | p
  · rfl
  · dsimp only
    split_ifs <;> first | exact tokens_markDone e pid c | rfl

theorem tokens_reissue (e : Engine) (pid : ProcessId) (c : Color) :
    tokenCount (reissueRequest e pid) c = tokenCount e c := by
  unfold reissueRequest
  rcases hg : getProc e.processes pid with _ | p
  · rfl
  · dsimp only
    split
    · rfl
    · have hst : ∀ c', stackTokens
          (updateProc (updateProc e.processes pid computeWantedColor) pid
            (fun q => choosePartner q
              (updateProc e.processes pid computeWantedColor))) c'
          = stackTokens e.processes c' := by
        intro c'
        rw [stackTokens_updateProc_stack_eq _ (fun q => choosePartner_stack q _),
          stackTokens_updateProc_stack_eq _ computeWantedColor_stack]
      rcases hg2 : getProc
          (updateProc (updateProc e.processes pid computeWantedColor) pid
            (fun q => choosePartner q
              (updateProc e.processes pid computeWantedColor)))
          pid with _ | p'
      · unfold tokenCount
        rw [hst]
      · unfold tokenCount
        dsimp only
        rw [hst, inFlight_append, inFlight_requestMessageOf]
        omega

theorem tokens_triggerFor (e : Engine) (pid : ProcessId) (c : Color) :
    tokenCount (triggerFor e pid) c = tokenCount e c := by
  unfold triggerFor
  rcases hg : getProc e.processes pid with _ | p
  · rfl
  · dsimp only
    split
    · rfl
    · split
      · rfl
      · exact tokens_reissue e pid c

theorem tokens_foldTrigger :
    ∀ (l : List ProcessId) (e : Engine) (c : Color),
      tokenCount (l.foldl triggerFor e) c = tokenCount e c := by
  intro l
  induction l with
  | nil => intro e c; rfl
  | cons pid rest ih =>
    intro e c
    rw [List.foldl_cons, ih (triggerFor e pid) c, tokens_triggerFor]

theorem tokens_handleDone (e : Engine) (sid : ProcessId) (c : Color) :
    tokenCount (handleDone e sid) c = tokenCount e c := by
  unfold handleDone tokenCount
  dsimp only
  rw [stackTokens_updateProc_stack_eq (fun q => { q with isDone := true })
    (fun q => rfl)]

theorem count_append_singleton (s : List Color) (x c : Color) :
    (s ++ [x]).count c = s.count c + (if x = c then 1 else 0) := by
  rw [List.count_append]
  by_cases h : x = c
  · subst h
    simp
  · rw [if_neg h]
    have hcx : ¬(c = x) := fun hh => h hh.symm
    simp [List.count_eq_zero, hcx]

theorem tokens_handleSend {e : Engine} {rid : ProcessId} {r : ProcessState}
    (hnd : (idsOf e.processes).Nodup) (hr : getProc e.processes rid = some r)
    (c' c : Color) :
    tokenCount (handleSend e rid (some c')) c
      = tokenCount e c + (if c' = c then 1 else 0) := by
  unfold handleSend
  dsimp only
  rw [tokens_reissue, tokens_checkMono]
  unfold tokenCount
  dsimp only
  have hupd := stackTokens_updateProc_count
    (fun q => { q with stack := q.stack ++ [c'] }) hnd hr c
  rw [count_append_singleton] at hupd
  omega

theorem tokens_handleRequest {e : Engine} (rid sid : ProcessId)
    (mc : Option Color) (c : Color) (hnd : (idsOf e.processes).Nodup) :
    tokenCount (handleRequest e rid sid mc) c = tokenCount e c := by
  unfold handleRequest
  rcases mc with _ | rc
  · rfl
  · dsimp only
    rw [tokens_reissue]
    rcases hg : getProc e.processes rid with _ | r
    · rfl
    · dsimp only
      split
      · rename_i hfound
        rw [tokens_checkMono]
        unfold tokenCount
        dsimp only
        have hupd := stackTokens_updateProc_count
          (fun q => { q with stack := removeFirstMatching q.stack rc q.wanted })
          hnd hg c
        dsimp only at hupd
        rw [inFlight_append, inFlight_single_send]
        by_cases hc : c = rc
        · subst hc
          have hrem := removeFirstMatching_count_eq r.stack c r.wanted hfound
          rw [if_pos rfl]
          omega
        · have hrem := removeFirstMatching_count_ne r.stack rc r.wanted c hc
          rw [if_neg (fun hh => hc hh.symm)]
          omega
      · rfl

theorem inFlight_cons (m : Message) (q : List Message) (c : Color) :
    inFlight (m :: q) c
      = inFlight q c
        + (if m.type = MsgType.SEND ∧ m.color = some c then 1 else 0) := by
  unfold inFlight
  rw [List.filter_cons]
  by_cases h : m.type = MsgType.SEND ∧ m.color = some c
  · rw [if_pos (by simp [h.1, h.2]), if_pos h, List.length_cons]
  · rw [if_neg (by simpa using h), if_neg h]
    omega

theorem tokens_processNext {e : Engine} (hwf : QueueWF e) (c : Color) :
    tokenCount (processNextMessage e) c = tokenCount e c := by
  unfold processNextMessage
  rcases hq : e.messageQueue with _ | ⟨msg, rest⟩
  · exact tokens_foldTrigger _ e c
  · dsimp only
    have htotal : tokenCount e c
        = stackTokens e.processes c + inFlight rest c
          + (if msg.type = MsgType.SEND ∧ msg.color = some c then 1 else 0) := by
      unfold tokenCount
      rw [hq, inFlight_cons]
      omega
    have hrest : tokenCount { e with messageQueue := rest } c
        = stackTokens e.processes c + inFlight rest c := rfl
    rcases hto : getProc e.processes msg.toId with _ | pto <;>
      rcases hfrom : getProc e.processes msg.fromId with _ | pfrom
    · -- dropped message: by well-formedness it cannot be a SEND
      have hnot : ¬(msg.type = MsgType.SEND) := by
        intro hty
        obtain ⟨h1, -⟩ := hwf.2 msg (by rw [hq]; exact List.mem_cons_self msg rest) hty
        have := getProc_isSome_of_hasProc h1
        rw [hto] at this
        simp at this
      rw [hrest, htotal, if_neg (fun hh => hnot hh.1)]
      omega
    · have hnot : ¬(msg.type = MsgType.SEND) := by
        intro hty
        obtain ⟨h1, -⟩ := hwf.2 msg (by rw [hq]; exact List.mem_cons_self msg rest) hty
        have := getProc_isSome_of_hasProc h1
        rw [hto] at this
        simp at this
      rw [hrest, htotal, if_neg (fun hh => hnot hh.1)]
      omega
    · have hnot : ¬(msg.type = MsgType.SEND) := by
        intro hty
        obtain ⟨-, h2⟩ := hwf.2 msg (by rw [hq]; exact List.mem_cons_self msg rest) hty
        have := getProc_isSome_of_hasProc h2
        rw [hfrom] at this
        simp at this
      rw [hrest, htotal, if_neg (fun hh => hnot hh.1)]
      omega
    · rcases hty : msg.type with _ | _ | _ <;> dsimp only
      · rw [@tokens_handleRequest { e with messageQueue := rest } msg.toId
          msg.fromId msg.color c hwf.1, hrest, htotal,
          if_neg (by rw [hty]; simp)]
        omega
      · rcases hcol : msg.color with _ | c'
        · have hsend : handleSend { e with messageQueue := rest } msg.toId none
              = { e with messageQueue := rest } := rfl
          rw [hsend, hrest, htotal]
          simp [hcol]
        · rw [@tokens_handleSend { e with messageQueue := rest } msg.toId pto
            hwf.1 hto c' c, hrest, htotal, hty]
          try rw [hcol]
          by_cases hcc : c' = c
          · simp [hcc]
          · have hsc : ¬(some c' = some c) := fun hh => hcc (Option.some.inj hh)
            simp [hcc, hsc]
      · rw [tokens_handleDone, hrest, htotal, if_neg (by rw [hty]; simp)]
        omega

theorem tokens_step {e e' : Engine} (hstep : EngineStep e e') (hwf : QueueWF e)
    (c : Color) : tokenCount e' c = tokenCount e c := by
  cases hstep with
  | dispatch => exact tokens_processNext hwf c
  | completionCheck pid => exact tokens_checkMono e pid c
  | protocolReentry pid => exact tokens_reissue e pid c
  | conflictResolution =>
    unfold tokenCount
    rw [show ({ e with processes := resolveColorConflicts e.processes } : Engine).processes
        = resolveColorConflicts e.processes from rfl, stackTokens_resolve]
  | forcedCompletion =>
    unfold tokenCount forceAllDone
    dsimp only
    rw [stackTokens_map_stack_eq (fun p => { p with isDone := true })
      (fun q => rfl) e.processes c]
  | cacheFeasibility b => rfl
  | toggleRunning b => rfl

/-! ## C1: conservation — per color and in total -/

theorem length_eq_counts (s : List Color) :
    s.length = s.count Color.R + s.count Color.G + s.count Color.B := by
  induction s with
  | nil => rfl
  | cons x rest ih =>
    rcases x <;> simp [List.count_cons, ih] <;> omega

theorem sendsInFlight_cons (m : Message) (q : List Message) :
    sendsInFlight (m :: q)
      = sendsInFlight q
        + (if m.type = MsgType.SEND ∧ m.color.isSome then 1 else 0) := by
  unfold sendsInFlight
  rw [List.filter_cons]
  by_cases h : m.type = MsgType.SEND ∧ m.color.isSome
  · rw [if_pos (by simp [h.1, h.2]), if_pos h, List.length_cons]
  · rw [if_neg (by simpa using h), if_neg h]
    omega

theorem sendsInFlight_eq (q : List Message) :
    sendsInFlight q
      = inFlight q Color.R + inFlight q Color.G + inFlight q Color.B := by
  induction q with
  | nil => rfl
  | cons m rest ih =>
    rw [sendsInFlight_cons, inFlight_cons, inFlight_cons, inFlight_cons, ih]
    rcases hcol : m.color with _ | c
    · simp
    · by_cases hty : m.type = MsgType.SEND
      · rcases c <;> simp [hty] <;> omega
      · simp [hty]

theorem totalTokens_eq_sum (e : Engine) :
    totalTokens e
      = tokenCount e Color.R + tokenCount e Color.G + tokenCount e Color.B := by
  unfold totalTokens tokenCount stackTokens
  have hlen : (allTokens e.processes).length
      = (e.processes.map (fun p => p.stack.length)).sum := by
    unfold allTokens
    induction e.processes with
    | nil => rfl
    | cons q rest ih =>
      rw [List.flatMap_cons, List.length_append, List.map_cons, List.sum_cons, ih]
  rw [← hlen, length_eq_counts (allTokens e.processes), sendsInFlight_eq]
  omega

theorem initEngine_tokens (dist : List (ProcessId × List Color)) (c : Color) :
    tokenCount (initEngine dist) c = ((dist.map Prod.snd).flatten).count c := by
  unfold tokenCount initEngine stackTokens allTokens inFlight
  dsimp only
  have hflat : (dist.map (fun pd =>
      (⟨pd.1, pd.2, none, none, false⟩ : ProcessState))).flatMap
        (fun p => p.stack) = (dist.map Prod.snd).flatten := by
    induction dist with
    | nil => rfl
    | cons pd rest ih =>
      rw [List.map_cons, List.flatMap_cons, List.map_cons, List.flatten_cons, ih]
  rw [hflat]
  simp

theorem initEngine_wf (dist : List (ProcessId × List Color))
    (h : (dist.map Prod.fst).Nodup) : QueueWF (initEngine dist) := by
  constructor
  · have hids : idsOf (initEngine dist).processes = dist.map Prod.fst := by
      unfold idsOf initEngine
      dsimp only
      rw [List.map_map]
      rfl
    rw [hids]
    exact h
  · intro m hm
    exact absurd hm (List.not_mem_nil m)

/-- C1: in every state reachable from a freshly initialized engine the
per-color quantity (balls in stacks plus balls in SEND messages) equals the
initial distribution's count for that color, likewise the total quantity —
and every single message dispatch preserves the per-color quantity on any
well-formed engine. -/
theorem token_conservation :
    (∀ (dist : List (ProcessId × List Color)) (e : Engine),
      (dist.map Prod.fst).Nodup → EngineReachable (initEngine dist) e →
      (∀ c, tokenCount e c = ((dist.map Prod.snd).flatten).count c) ∧
        totalTokens e = ((dist.map Prod.snd).flatten).length) ∧
    (∀ e, QueueWF e →
      ∀ c, tokenCount (processNextMessage e) c = tokenCount e c) := by
  have hmain : ∀ (dist : List (ProcessId × List Color)) (e : Engine),
      (dist.map Prod.fst).Nodup → EngineReachable (initEngine dist) e →
      QueueWF e ∧ ∀ c, tokenCount e c = tokenCount (initEngine dist) c := by
    intro dist e hnd hreach
    unfold EngineReachable at hreach
    induction hreach with
    | refl => exact ⟨initEngine_wf dist hnd, fun c => rfl⟩
    | tail hr hstep ih =>
      obtain ⟨hwf, htok⟩ := ih
      exact ⟨wf_step hstep hwf,
        fun c => (tokens_step hstep hwf c).trans (htok c)⟩
  constructor
  · intro dist e hnd hreach
    obtain ⟨hwf, htok⟩ := hmain dist e hnd hreach
    have hcolor : ∀ c, tokenCount e c = ((dist.map Prod.snd).flatten).count c :=
      fun c => (htok c).trans (initEngine_tokens dist c)
    refine ⟨hcolor, ?_⟩
    rw [totalTokens_eq_sum, hcolor, hcolor, hcolor,
      length_eq_counts ((dist.map Prod.snd).flatten)]
  · intro e hwf c
    exact tokens_processNext hwf c

theorem token_conservation_witness :
    tokenCount (processNextMessage midRunEngine) Color.R
      = tokenCount midRunEngine Color.R :=
  token_conservation.2 midRunEngine ⟨by decide, by decide⟩ Color.R

/-- C4: for every non-empty set of processes the feasibility oracle returns
true exactly when all three conditions hold: the number of distinct present
colors is at least the process count, the total ball count divides evenly by
the process count, and the greedy assignment over the counts in descending
order hands each process a full single-color share.  (The final
`totalAssigned === totalBalls` comparison in the source is subsumed by
divisibility.) -/
theorem feasibility_oracle_iff (ps : List ProcessState) (h : ps ≠ []) :
    isPerfectMonochromeAchievable ps =
      (decide (ps.length ≤ (keysOf (allTokens ps)).length)
        && decide (ps.length ∣ (allTokens ps).length)
        && greedyLoop (sortByCountDesc (countsList (allTokens ps)))
             ((allTokens ps).length / ps.length) ps.length) := by
  have hn : 0 < ps.length := List.length_pos.mpr h
  have hkeys : (countsList (allTokens ps)).length = (keysOf (allTokens ps)).length := by
    rw [countsList, List.length_map]
  unfold isPerfectMonochromeAchievable
  dsimp only
  by_cases hlt : (countsList (allTokens ps)).length < ps.length
  · rw [if_pos hlt]
    have hnle : ¬ps.length ≤ (keysOf (allTokens ps)).length := by omega
    simp [hnle]
  · rw [if_neg hlt, if_neg (by omega)]
    by_cases hmod : (allTokens ps).length % ps.length ≠ 0
    · rw [if_pos hmod]
      have hndvd : ¬ps.length ∣ (allTokens ps).length := by
        rw [Nat.dvd_iff_mod_eq_zero]
        omega
      simp [hndvd]
    · rw [if_neg hmod]
      have hdvd : ps.length ∣ (allTokens ps).length :=
        Nat.dvd_iff_mod_eq_zero.mpr (by omega)
      have hmul : ps.length * ((allTokens ps).length / ps.length)
          = (allTokens ps).length := Nat.mul_div_cancel' hdvd
      have hle : ps.length ≤ (keysOf (allTokens ps)).length := by omega
      simp [hmul, hdvd, hle]

theorem feasibility_oracle_iff_witness :
    ([(⟨ProcessId.p1, [Color.R, Color.G], none, none, false⟩ : ProcessState),
      ⟨ProcessId.p2, [Color.G, Color.R], none, none, false⟩] ≠
        ([] : List ProcessState)) ∧
      isPerfectMonochromeAchievable
          [⟨ProcessId.p1, [Color.R, Color.G], none, none, false⟩,
           ⟨ProcessId.p2, [Color.G, Color.R], none, none, false⟩] =
        (decide ((2 : Nat) ≤ (keysOf (allTokens
              [⟨ProcessId.p1, [Color.R, Color.G], none, none, false⟩,
               ⟨ProcessId.p2, [Color.G, Color.R], none, none, false⟩])).length)
          && decide ((2 : Nat) ∣ (allTokens
              [⟨ProcessId.p1, [Color.R, Color.G], none, none, false⟩,
               ⟨ProcessId.p2, [Color.G, Color.R], none, none, false⟩]).length)
          && greedyLoop (sortByCountDesc (countsList (allTokens
              [⟨ProcessId.p1, [Color.R, Color.G], none, none, false⟩,
               ⟨ProcessId.p2, [Color.G, Color.R], none, none, false⟩])))
               ((allTokens
              [⟨ProcessId.p1, [Color.R, Color.G], none, none, false⟩,
               ⟨ProcessId.p2, [Color.G, Color.R], none, none, false⟩]).length / 2) 2) :=
  ⟨by decide,
    feasibility_oracle_iff
      [⟨ProcessId.p1, [Color.R, Color.G], none, none, false⟩,
       ⟨ProcessId.p2, [Color.G, Color.R], none, none, false⟩] (by decide)⟩

theorem completion_check_matches_oracle_witness :
    getProc [(⟨ProcessId.p1, [Color.R], none, none, false⟩ : ProcessState)]
        ProcessId.p1 = some ⟨ProcessId.p1, [Color.R], none, none, false⟩ ∧
      checkMonochrome
          { processes := [⟨ProcessId.p1, [Color.R], none, none, false⟩],
            messageQueue := [], totalExchanges := 0,
            perfectMonochromeAchievable := true, isRunning := true }
          ProcessId.p1 =
        if processCompleteSpec ⟨ProcessId.p1, [Color.R], none, none, false⟩
            [⟨ProcessId.p1, [Color.R], none, none, false⟩] true
        then markDoneAndBroadcast
          { processes := [⟨ProcessId.p1, [Color.R], none, none, false⟩],
            messageQueue := [], totalExchanges := 0,
            perfectMonochromeAchievable := true, isRunning := true }
          ProcessId.p1
        else
          { processes := [⟨ProcessId.p1, [Color.R], none, none, false⟩],
            messageQueue := [], totalExchanges := 0,
            perfectMonochromeAchievable := true, isRunning := true } :=
  ⟨by decide,
    completion_check_matches_oracle _ ProcessId.p1 _ (by decide)⟩

end Consensus
